import Mathlib

/-!
Shallow embedding of the neffect pixel-effect engine.

Sources embedded here:
- `src/wasm/assembly/utils.ts` (clamp, adjustBrightnessContrast, rgbToGray)
- `src/wasm/assembly/dithering.ts` (BAYER_8X8, findClosestColor, orderedDither)
- `src/wasm/assembly/grayscale.ts` (grayscale)
- the pixelate kernels (pixelateWithColors, pixelate)
- the halftone fast-path kernel (byte-addressed memory model)
- the DitheringProcessor managed fallback (BAYER_MATRIX_4X4, applyOrderedDither,
  applyBrightnessContrast, findNearestColor, applyPaletteQuantization, resize
  helpers, prepareData, processWasm, processJs)
- the PixelateProcessor managed fallback (processJs, quantize)
- the BaseWasmProcessor fast-path/fallback selector

Modelling conventions, stated once and used throughout:
- machine bytes are `Nat` with `% 256` exactly where the source performs a `u8`
  conversion; `i32` arithmetic is modelled on `Int`/`Nat` (the embedded kernels
  only ever produce values far below `2^31`, overflow-free on the inputs the
  claims quantify over, so the unbounded model coincides with the source);
- `f32`/JS `number` arithmetic is modelled as exact rational arithmetic on the
  fraction type `Frac` (unnormalized integer numerator/denominator pairs, so
  that every operation reduces structurally inside the kernel; every value the
  embedding constructs has a positive denominator); conversions
  `<i32>`/truncation are `ratTrunc` (round toward zero), JS `Math.floor` is
  `Frac.floor`, JS `Math.round` / AssemblyScript `NativeMathf.round` is
  `ratRound` (half toward positive infinity);
- an image (`ImageData`) is a width, a height and a pixel map; the flat RGBA8
  buffer of the source is addressed per pixel (index `(y*width+x)*4`), so a
  pixel map indexed by coordinates is an equivalent view; the halftone fast
  kernel is instead modelled on a byte-addressed heap because its claims are
  about which byte regions it reads and writes.
-/

namespace Neffect

/-- RGBA pixel: one byte per channel, in source order R, G, B, A. -/
structure RGBA where
  r : Nat
  g : Nat
  b : Nat
  a : Nat
deriving DecidableEq

/-- Image model for `ImageData`: dimensions plus a pixel map. Coordinates
outside `[0,width) × [0,height)` are kept by every kernel exactly as they are
(the flat buffers of the source have no such coordinates at all). -/
structure Img where
  width : Nat
  height : Nat
  pix : Nat → Nat → RGBA

/-- Exact rational value with explicit (unnormalized) numerator and
denominator. All values built by the embedding keep a positive denominator, so
the cross-multiplication order and equivalence below agree with the rational
order. -/
structure Frac where
  num : ℤ
  den : ℤ

/-- Embedding of an integer. -/
def Frac.ofInt (n : ℤ) : Frac :=
  ⟨n, 1⟩

instance : IntCast Frac := ⟨Frac.ofInt⟩

instance : NatCast Frac := ⟨fun n => ⟨(n : ℤ), 1⟩⟩

instance (n : Nat) : OfNat Frac n := ⟨⟨(n : ℤ), 1⟩⟩

instance : OfScientific Frac :=
  ⟨fun m b e =>
    if b then ⟨(m : ℤ), ((10 ^ e : Nat) : ℤ)⟩ else ⟨(m : ℤ) * ((10 ^ e : Nat) : ℤ), 1⟩⟩

instance : Add Frac := ⟨fun a b => ⟨a.num * b.den + b.num * a.den, a.den * b.den⟩⟩

instance : Sub Frac := ⟨fun a b => ⟨a.num * b.den - b.num * a.den, a.den * b.den⟩⟩

instance : Mul Frac := ⟨fun a b => ⟨a.num * b.num, a.den * b.den⟩⟩

instance : Div Frac := ⟨fun a b => ⟨a.num * b.den, a.den * b.num⟩⟩

instance : Neg Frac := ⟨fun a => ⟨-a.num, a.den⟩⟩

instance : LT Frac := ⟨fun a b => a.num * b.den < b.num * a.den⟩

instance : LE Frac := ⟨fun a b => a.num * b.den ≤ b.num * a.den⟩

instance (a b : Frac) : Decidable (a < b) :=
  inferInstanceAs (Decidable (a.num * b.den < b.num * a.den))

instance (a b : Frac) : Decidable (a ≤ b) :=
  inferInstanceAs (Decidable (a.num * b.den ≤ b.num * a.den))

/-- Value equality of fractions (structural equality would distinguish
`0/100` from `0/1`). -/
def Frac.eqv (a b : Frac) : Prop :=
  a.num * b.den = b.num * a.den

instance (a b : Frac) : Decidable (a.eqv b) :=
  inferInstanceAs (Decidable (a.num * b.den = b.num * a.den))

/-- Floor of a fraction with positive denominator (`Int.ediv` rounds toward
negative infinity for a positive divisor): JS `Math.floor`. -/
def Frac.floor (a : Frac) : ℤ :=
  Int.ediv a.num a.den

/-- Larger of two fractions, `Math.max`. -/
def Frac.maxF (a b : Frac) : Frac :=
  if a < b then b else a

/-- Smaller of two fractions, `Math.min`. -/
def Frac.minF (a b : Frac) : Frac :=
  if b < a then b else a

/-- Truncation of a rational toward zero (`Int.div` is T-division), the
semantics of an `<i32>` cast of an `f32` value in the fast-path kernels. -/
def ratTrunc (q : Frac) : ℤ :=
  Int.tdiv q.num q.den

/-- Rounding half toward positive infinity: JS `Math.round` and AssemblyScript
`NativeMathf.round`. -/
def ratRound (q : Frac) : ℤ :=
  (q + (1 : Frac)/2).floor

/-- Integer clamp from `src/wasm/assembly/utils.ts` (`clamp`). -/
def clamp (value lo hi : ℤ) : ℤ :=
  if value < lo then lo else if value > hi then hi else value

/-- Brightness/contrast adjustment from `src/wasm/assembly/utils.ts`
(`adjustBrightnessContrast`): normalize to `[0,1]`, add brightness, apply
contrast only when nonzero, scale back and truncate, then clamp to `[0,255]`. -/
def adjustBrightnessContrast (value : ℤ) (brightness contrast : Frac) : ℤ :=
  let v : Frac := (value : Frac) / 255 + brightness
  let v2 : Frac := if ¬ contrast.eqv 0 then (v - 1/2) * (1 + contrast) + 1/2 else v
  clamp (ratTrunc (v2 * 255)) 0 255

/-- Luminosity from `src/wasm/assembly/utils.ts` (`rgbToGray`): truncating
`i32` division by 1000. -/
def rgbToGray (r g b : Nat) : Nat :=
  (r * 299 + g * 587 + b * 114) / 1000

/-- The 8×8 Bayer matrix of the fast-path dithering kernel
(`src/wasm/assembly/dithering.ts`, `BAYER_8X8`), row-major. -/
def BAYER_8X8 : List Nat :=
  [ 0, 32,  8, 40,  2, 34, 10, 42,
   48, 16, 56, 24, 50, 18, 58, 26,
   12, 44,  4, 36, 14, 46,  6, 38,
   60, 28, 52, 20, 62, 30, 54, 22,
    3, 35, 11, 43,  1, 33,  9, 41,
   51, 19, 59, 27, 49, 17, 57, 25,
   15, 47,  7, 39, 13, 45,  5, 37,
   63, 31, 55, 23, 61, 29, 53, 21]

/-- Squared distance over R, G, B only, exactly the quantity accumulated by
`findClosestColor` in `src/wasm/assembly/dithering.ts` (the palette entry's
alpha byte is never loaded). -/
def distRGB (r g b : ℤ) (c : RGBA) : ℤ :=
  let dr := r - (c.r : ℤ)
  let dg := g - (c.g : ℤ)
  let db := b - (c.b : ℤ)
  dr * dr + dg * dg + db * db

/-- Loop of `findClosestColor`: scan the remaining palette entries, at absolute
index `i`, keeping the best distance and its index; update on strict `<`. -/
def findClosestColorAux (r g b : ℤ) : List RGBA → Nat → ℤ → Nat → Nat
  | [], _, _, closestIdx => closestIdx
  | c :: rest, i, minDist, closestIdx =>
      let d := distRGB r g b c
      if d < minDist then findClosestColorAux r g b rest (i + 1) d i
      else findClosestColorAux r g b rest (i + 1) minDist closestIdx

/-- Nearest-color search of the fast path (`src/wasm/assembly/dithering.ts`,
`findClosestColor`): `minDist` starts at `0x7FFFFFFF`, `closestIdx` at 0. -/
def findClosestColor (r g b : ℤ) (pal : List RGBA) : Nat :=
  findClosestColorAux r g b pal 0 2147483647 0

/-- Per-pixel body of the fast-path `orderedDither` loop
(`src/wasm/assembly/dithering.ts`): transparency guard, brightness/contrast,
Bayer threshold `(BAYER_8X8[by*8+bx] - 32) * 4` at `bx = (x/grainSize) % 8`,
`by = (y/grainSize) % 8`, clamp, nearest palette color, and the full RGBA of
that palette entry written back. -/
def orderedDitherPixel (pal : List RGBA) (grainSize : Nat)
    (brightness contrast : Frac) (x y : Nat) (p : RGBA) : RGBA :=
  if p.a < 10 then p
  else
    let r := adjustBrightnessContrast (p.r : ℤ) brightness contrast
    let g := adjustBrightnessContrast (p.g : ℤ) brightness contrast
    let b := adjustBrightnessContrast (p.b : ℤ) brightness contrast
    let bx := (x / grainSize) % 8
    let yy := (y / grainSize) % 8
    let threshold : ℤ := ((BAYER_8X8.getD (yy * 8 + bx) 0 : ℤ) - 32) * 4
    let r2 := clamp (r + threshold) 0 255
    let g2 := clamp (g + threshold) 0 255
    let b2 := clamp (b + threshold) 0 255
    let colorIdx := findClosestColor r2 g2 b2 pal
    pal.getD colorIdx ⟨0, 0, 0, 0⟩

/-- Fast-path ordered dithering over a whole image: the source iterates the
linear index `i < width*height` with `x = i % width`, `y = i / width`, i.e.
exactly the in-bounds coordinates, updating each pixel in place. -/
def orderedDither (img : Img) (pal : List RGBA) (grainSize : Nat)
    (brightness contrast : Frac) : Img :=
  { img with
    pix := fun x y =>
      if x < img.width ∧ y < img.height then
        orderedDitherPixel pal grainSize brightness contrast x y (img.pix x y)
      else img.pix x y }

/-- Per-pixel body of the fast-path `grayscale` loop
(`src/wasm/assembly/grayscale.ts`): the `<u8>` conversion is `% 256`, alpha is
not stored. -/
def grayscalePixel (p : RGBA) : RGBA :=
  let gray := rgbToGray p.r p.g p.b % 256
  ⟨gray, gray, gray, p.a⟩

/-- Fast-path grayscale over a whole image. -/
def grayscale (img : Img) : Img :=
  { img with
    pix := fun x y =>
      if x < img.width ∧ y < img.height then grayscalePixel (img.pix x y)
      else img.pix x y }

/-- Start offsets of a counting loop `for (v = 0; v < len; v += step)`, used by
both pixelate (`by`/`bx` block starts) and the halftone grid (`gy`/`gx`). For
`step ≥ 1` this list is exactly the sequence of loop values. -/
def starts (len step : Nat) : List Nat :=
  (List.range ((len + step - 1) / step)).map (fun k => k * step)

/-- Top-left corners of the pixelate blocks in source traversal order (outer
loop over `by`, inner over `bx`); a pair is `(bx, by)`. -/
def blocks (w h bs : Nat) : List (Nat × Nat) :=
  (starts h bs).flatMap (fun j => (starts w bs).map (fun i => (i, j)))

/-- Absolute coordinates scanned inside one block: outer loop `py < blockH`,
inner loop `px < blockW`, pixel `(bx + px, by + py)`. -/
def blockCoords (i j bw bh : Nat) : List (Nat × Nat) :=
  (List.range bh).flatMap (fun py => (List.range bw).map (fun px => (i + px, j + py)))

/-- Channel accumulators `totalR/totalG/totalB/totalA` of the pixelate kernels. -/
structure Sums where
  totalR : Nat
  totalG : Nat
  totalB : Nat
  totalA : Nat
deriving DecidableEq

/-- One accumulation step of the block-summing loop. -/
def addPix (s : Sums) (p : RGBA) : Sums :=
  ⟨s.totalR + p.r, s.totalG + p.g, s.totalB + p.b, s.totalA + p.a⟩

/-- Sum of all four channels over the pixels of one block, as accumulated by
the first inner loop pair of `pixelate` / `pixelateWithColors`. -/
def blockSums (pix : Nat → Nat → RGBA) (i j bw bh : Nat) : Sums :=
  (blockCoords i j bw bh).foldl (fun s q => addPix s (pix q.1 q.2)) ⟨0, 0, 0, 0⟩

/-- Block fill color of plain `pixelate`: truncating `i32` averages, stored
through `<u8>` casts. -/
def avgMk (s : Sums) (count : Nat) : RGBA :=
  ⟨s.totalR / count % 256, s.totalG / count % 256,
   s.totalB / count % 256, s.totalA / count % 256⟩

/-- Block fill color of `pixelateWithColors`: truncating averages, R, G, B
additionally quantized with `levelStep = 255/(colorLevels-1)` via
`NativeMathf.round(avg/levelStep)*levelStep` and a `<u8>` cast; alpha only
averaged. -/
def quantMk (colorLevels : Nat) (s : Sums) (count : Nat) : RGBA :=
  let levelStep : Frac := 255 / ((colorLevels : Frac) - 1)
  let avgR : Frac := ((s.totalR / count : Nat) : Frac)
  let avgG : Frac := ((s.totalG / count : Nat) : Frac)
  let avgB : Frac := ((s.totalB / count : Nat) : Frac)
  let qR := (ratTrunc (((ratRound (avgR / levelStep) : ℤ) : Frac) * levelStep)).toNat % 256
  let qG := (ratTrunc (((ratRound (avgG / levelStep) : ℤ) : Frac) * levelStep)).toNat % 256
  let qB := (ratTrunc (((ratRound (avgB / levelStep) : ℤ) : Frac) * levelStep)).toNat % 256
  ⟨qR, qG, qB, s.totalA / count % 256⟩

/-- Fill color a block-fill kernel computes for the block at `(i, j)` when the
buffer content is `pix`: clipped block dimensions `min(blockSize, width-bx)`
and `min(blockSize, height-by)`, pixel count as counted by the loop. -/
def stepColor (mk : Sums → Nat → RGBA) (w h bs : Nat)
    (pix : Nat → Nat → RGBA) (i j : Nat) : RGBA :=
  let bw := min bs (w - i)
  let bh := min bs (h - j)
  mk (blockSums pix i j bw bh) (blockCoords i j bw bh).length

/-- Processing of one block: sum the block's pixels from the current buffer,
then overwrite exactly that block region with the computed fill color. -/
def stepBlock (mk : Sums → Nat → RGBA) (w h bs : Nat)
    (pix : Nat → Nat → RGBA) (b : Nat × Nat) : Nat → Nat → RGBA :=
  let bw := min bs (w - b.1)
  let bh := min bs (h - b.2)
  let c := stepColor mk w h bs pix b.1 b.2
  fun x y =>
    if b.1 ≤ x ∧ x < b.1 + bw ∧ b.2 ≤ y ∧ y < b.2 + bh then c else pix x y

/-- Shared shape of the two pixelate kernels: process the blocks sequentially
in source order, in place. -/
def pixelateGen (mk : Sums → Nat → RGBA) (img : Img) (bs : Nat) : Img :=
  { img with
    pix := (blocks img.width img.height bs).foldl
      (stepBlock mk img.width img.height bs) img.pix }

/-- Plain pixelate kernel (`pixelate` of the fast path). -/
def pixelate (img : Img) (bs : Nat) : Img :=
  pixelateGen avgMk img bs

/-- Quantizing pixelate kernel (`pixelateWithColors` of the fast path). -/
def pixelateWithColors (img : Img) (bs colorLevels : Nat) : Img :=
  pixelateGen (quantMk colorLevels) img bs

/-- Top-left corner of the block containing column or row `x` for block size
`bs`: the partition is anchored at the origin. -/
def bStart (bs x : Nat) : Nat :=
  x / bs * bs

/-- Byte store into the linear memory, modelling `store<u8>`: the value is
wrapped to a byte. -/
def store8 (m : Nat → Nat) (addr v : Nat) : Nat → Nat :=
  fun q => if q = addr then v % 256 else m q

/-- Four consecutive byte stores of one RGBA pixel at `base`, as every pixel
write of the halftone kernel performs them. -/
def storePixel (m : Nat → Nat) (base : Nat) (c : RGBA) : Nat → Nat :=
  store8 (store8 (store8 (store8 m base c.r) (base + 1) c.g) (base + 2) c.b)
    (base + 3) c.a

/-- Four consecutive byte loads of one RGBA pixel at `base`. -/
def readPixel (m : Nat → Nat) (base : Nat) : RGBA :=
  ⟨m base, m (base + 1), m (base + 2), m (base + 3)⟩

/-- Byte wrap of a whole pixel, the value `storePixel` leaves in memory. -/
def wrap256 (c : RGBA) : RGBA :=
  ⟨c.r % 256, c.g % 256, c.b % 256, c.a % 256⟩

/-- Background fill loop of the halftone kernel: pixel `i < width*height` at
`outputPtr + i*4` is overwritten with the background color. -/
def fillBg (m : Nat → Nat) (outPtr n : Nat) (bg : RGBA) : Nat → Nat :=
  (List.range n).foldl (fun m1 i => storePixel m1 (outPtr + i * 4) bg) m

/-- Brightness accumulation of one halftone grid cell: the loops run
`py < spacing && gy + py < height` and `px < spacing && gx + px < width`,
summing `rgbToGray` of the three color bytes at input index
`((gy+py)*width + (gx+px))*4` and counting the scanned pixels. -/
def cellSum (m : Nat → Nat) (pixelsPtr w h gx gy spacing : Nat) : Nat × Nat :=
  ((List.range (min spacing (h - gy))).flatMap (fun py =>
      (List.range (min spacing (w - gx))).map (fun px => (px, py)))).foldl
    (fun tc q =>
      let idx := ((gy + q.2) * w + (gx + q.1)) * 4
      (tc.1 + rgbToGray (m (pixelsPtr + idx)) (m (pixelsPtr + idx + 1))
          (m (pixelsPtr + idx + 2)),
        tc.2 + 1))
    (0, 0)

/-- Dot radius of a halftone cell: `maxRadius * (1 - avgBrightness/255)` with
`maxRadius = dotSize/2` and `avgBrightness = totalBrightness/count`. -/
def cellRadius (dotSize total count : Nat) : Frac :=
  ((dotSize : Frac) / 2) * (1 - ((total : Frac) / (count : Frac)) / 255)

/-- Inclusive `i32` loop range `for (v = lo; v <= hi; v++)`. -/
def izRange (lo hi : ℤ) : List ℤ :=
  (List.range (hi + 1 - lo).toNat).map (fun (k : Nat) => lo + (k : ℤ))

/-- Processing of one halftone grid cell `(gx, gy)`: average the cell's
brightness from the input region, skip when the cell is empty or the dot
radius is below `0.5`, otherwise rasterize a circular dot of the dot color
into the output region over the clipped bounding box of the dot. -/
def processCell (pixelsPtr outPtr w h dotSize spacing : Nat) (dotC : RGBA)
    (m : Nat → Nat) (cell : Nat × Nat) : Nat → Nat :=
  let gx := cell.1
  let gy := cell.2
  let tc := cellSum m pixelsPtr w h gx gy spacing
  if tc.2 = 0 then m
  else
    let dotRadius : Frac := cellRadius dotSize tc.1 tc.2
    if dotRadius < 1/2 then m
    else
      let halfSpacing : Frac := (spacing : Frac) / 2
      let centerX : Frac := (gx : Frac) + halfSpacing
      let centerY : Frac := (gy : Frac) + halfSpacing
      let radiusSq : Frac := dotRadius * dotRadius
      let startY : ℤ := max 0 (ratTrunc (centerY - dotRadius))
      let endY : ℤ := min ((h : ℤ) - 1) (ratTrunc (centerY + dotRadius))
      let startX : ℤ := max 0 (ratTrunc (centerX - dotRadius))
      let endX : ℤ := min ((w : ℤ) - 1) (ratTrunc (centerX + dotRadius))
      (izRange startY endY).foldl (fun m1 (y : ℤ) =>
        (izRange startX endX).foldl (fun m2 (x : ℤ) =>
          if ((x : Frac) - centerX) * ((x : Frac) - centerX)
              + ((y : Frac) - centerY) * ((y : Frac) - centerY) ≤ radiusSq then
            storePixel m2 (outPtr + (y * (w : ℤ) + x).toNat * 4) dotC
          else m2) m1) m

/-- Halftone fast-path kernel on the linear memory: fill the output region
with the background color, then process the grid cells (`gy` outer, `gx`
inner, stride `spacing`) in source order. -/
def halftone (m : Nat → Nat) (pixelsPtr outPtr w h dotSize spacing : Nat)
    (dotC bgC : RGBA) : Nat → Nat :=
  (blocks w h spacing).foldl (processCell pixelsPtr outPtr w h dotSize spacing dotC)
    (fillBg m outPtr (w * h) bgC)

/-- The 4×4 Bayer matrix of the managed dithering fallback
(`BAYER_MATRIX_4X4`). -/
def BAYER_MATRIX_4X4 : List (List Nat) :=
  [[0, 8, 2, 10], [12, 4, 14, 6], [3, 11, 1, 9], [15, 7, 13, 5]]

/-- Divisor paired with the 4×4 matrix (`BAYER_DIVISOR`). -/
def BAYER_DIVISOR : Nat := 16

/-- Rational clamp, modelling the processor helper
`clamp(value) = Math.min(max, Math.max(min, value))`. -/
def clampQ (v lo hi : Frac) : Frac :=
  Frac.minF hi (Frac.maxF lo v)

/-- Per-pixel body of the managed fallback `applyOrderedDither`
(DitheringProcessor): grayscale conversion, 4×4 Bayer threshold, level
quantization with `levels = max(1, 13 - steps)`, then linear interpolation of
all four channels between `palette[0]` and `palette[1]`. There is no
transparency guard, and alpha is rewritten like the color channels. -/
def applyOrderedDitherPixel (steps : Nat) (pal : List RGBA) (x y : Nat)
    (p : RGBA) : RGBA :=
  let levels : Nat := max 1 (13 - steps)
  let gray : Frac := (0.299 : Frac) * p.r + (0.587 : Frac) * p.g + (0.114 : Frac) * p.b
  let threshold : Frac :=
    (((BAYER_MATRIX_4X4.getD (y % 4) []).getD (x % 4) 0 : Frac) + 1/2)
      / (BAYER_DIVISOR : Frac)
  let rawLevel : Frac := gray / 255 * levels + threshold - 1/2
  let level : Frac := clampQ ((rawLevel.floor : ℤ) : Frac) 0 ((levels : Frac) - 1)
  let targetGray : Frac := if 1 < levels then level / ((levels : Frac) - 1) * 255 else 0
  let t : Frac := targetGray / 255
  let darkColor := pal.getD 0 ⟨0, 0, 0, 0⟩
  let brightColor := pal.getD 1 ⟨0, 0, 0, 0⟩
  let mix := fun (dc bc : Nat) =>
    (clamp (ratRound ((dc : Frac) + ((bc : Frac) - (dc : Frac)) * t)) 0 255).toNat
  ⟨mix darkColor.r brightColor.r, mix darkColor.g brightColor.g,
   mix darkColor.b brightColor.b, mix darkColor.a brightColor.a⟩

/-- Managed fallback ordered dither over a whole image (loops over
`y < height`, `x < width`). -/
def applyOrderedDither (img : Img) (steps : Nat) (pal : List RGBA) : Img :=
  { img with
    pix := fun x y =>
      if x < img.width ∧ y < img.height then
        applyOrderedDitherPixel steps pal x y (img.pix x y)
      else img.pix x y }

/-- One color channel of the managed `applyBrightnessContrast` (applied to
R, G, B only; contrast is applied unconditionally here, unlike the fast-path
helper). -/
def bcChannel (ch : Nat) (brightness contrast : Frac) : Nat :=
  (max 0 (min 255
    (ratRound (((((ch : Frac) / 255 + brightness) - 1/2) * (1 + contrast) + 1/2) * 255)))).toNat

/-- Managed brightness/contrast pass of the DitheringProcessor. -/
def applyBrightnessContrastJs (img : Img) (brightness contrast : Frac) : Img :=
  { img with
    pix := fun x y =>
      if x < img.width ∧ y < img.height then
        let p := img.pix x y
        ⟨bcChannel p.r brightness contrast, bcChannel p.g brightness contrast,
         bcChannel p.b brightness contrast, p.a⟩
      else img.pix x y }

/-- Squared distance over all four channels, as accumulated by the managed
`findNearestColor` (note: unlike the fast path, alpha is included). -/
def distRGBA (c cand : RGBA) : ℤ :=
  let dr := (cand.r : ℤ) - (c.r : ℤ)
  let dg := (cand.g : ℤ) - (c.g : ℤ)
  let db := (cand.b : ℤ) - (c.b : ℤ)
  let da := (cand.a : ℤ) - (c.a : ℤ)
  dr * dr + dg * dg + db * db + da * da

/-- Loop of the managed `findNearestColor`; `none` models the initial
`Number.POSITIVE_INFINITY` best distance, which every finite distance beats. -/
def findNearestColorAux (c : RGBA) : List RGBA → RGBA → Option ℤ → RGBA
  | [], best, _ => best
  | cand :: rest, best, bestDist =>
      let d := distRGBA c cand
      match bestDist with
      | none => findNearestColorAux c rest cand (some d)
      | some bd =>
          if d < bd then findNearestColorAux c rest cand (some d)
          else findNearestColorAux c rest best (some bd)

/-- Managed nearest-color search (DitheringProcessor.findNearestColor):
starts from `best = palette[0]`, infinite initial best distance. -/
def findNearestColor (c : RGBA) (pal : List RGBA) : RGBA :=
  findNearestColorAux c pal (pal.getD 0 ⟨0, 0, 0, 0⟩) none

/-- Managed palette quantization (the `filter = "none"` branch). -/
def applyPaletteQuantization (img : Img) (pal : List RGBA) : Img :=
  { img with
    pix := fun x y =>
      if x < img.width ∧ y < img.height then findNearestColor (img.pix x y) pal
      else img.pix x y }

/-- Nearest-neighbor resize (DitheringProcessor.resizeImageNearest): source
pixel `(floor(x/newW*width), floor(y/newH*height))`; the fresh output buffer
is zero-initialized, hence the transparent pixel outside the new bounds. -/
def resizeImageNearest (img : Img) (nw nh : Nat) : Img :=
  ⟨nw, nh, fun x y =>
    if x < nw ∧ y < nh then img.pix (x * img.width / nw) (y * img.height / nh)
    else ⟨0, 0, 0, 0⟩⟩

/-- One channel of the bilinear resize: lerp horizontally on the two source
rows, then vertically, `Math.round` the result; the assignment into the
clamped byte array clamps to `[0, 255]`. -/
def bilinearChannel (f : RGBA → Nat) (img : Img) (nw nh x y : Nat) : Nat :=
  let srcX : Frac := (x : Frac) / nw * img.width
  let srcY : Frac := (y : Frac) / nh * img.height
  let x0 : Nat := srcX.floor.toNat
  let y0 : Nat := srcY.floor.toNat
  let x1 : Nat := min (x0 + 1) (img.width - 1)
  let y1 : Nat := min (y0 + 1) (img.height - 1)
  let xLerp : Frac := srcX - x0
  let yLerp : Frac := srcY - y0
  let top : Frac := (f (img.pix x0 y0) : Frac) * (1 - xLerp) + (f (img.pix x1 y0) : Frac) * xLerp
  let bottom : Frac := (f (img.pix x0 y1) : Frac) * (1 - xLerp) + (f (img.pix x1 y1) : Frac) * xLerp
  (clamp (ratRound (top * (1 - yLerp) + bottom * yLerp)) 0 255).toNat

/-- Bilinear resize (DitheringProcessor.resizeImageBilinear). -/
def resizeImageBilinear (img : Img) (nw nh : Nat) : Img :=
  ⟨nw, nh, fun x y =>
    if x < nw ∧ y < nh then
      ⟨bilinearChannel (fun p => p.r) img nw nh x y,
       bilinearChannel (fun p => p.g) img nw nh x y,
       bilinearChannel (fun p => p.b) img nw nh x y,
       bilinearChannel (fun p => p.a) img nw nh x y⟩
    else ⟨0, 0, 0, 0⟩⟩

/-- Height-targeted resize (DitheringProcessor.resizeImage): identity when the
height already matches, otherwise bilinear to
`(max(1, round(width*scale)), targetHeight)`. -/
def resizeImage (img : Img) (targetHeight : Nat) : Img :=
  if img.height = targetHeight then img
  else
    let scale : Frac := (targetHeight : Frac) / (img.height : Frac)
    let newWidth : Nat := max 1 (ratRound ((img.width : Frac) * scale)).toNat
    resizeImageBilinear img newWidth targetHeight

/-- Palette names of the DitheringProcessor settings. -/
inductive PaletteName where
  | blueOnTransparent
  | whiteOnTransparent
deriving DecidableEq

/-- Static palette table (`PALETTES`). -/
def PALETTES : PaletteName → List RGBA
  | .blueOnTransparent => [⟨0, 0, 0, 0⟩, ⟨59, 130, 245, 255⟩]
  | .whiteOnTransparent => [⟨0, 0, 0, 0⟩, ⟨255, 255, 255, 255⟩]

/-- Filter setting of the DitheringProcessor; `paletteOnly` is the source's
`"none"` value. -/
inductive DitherFilter where
  | ordered
  | paletteOnly
deriving DecidableEq

/-- Resolved numeric settings of the DitheringProcessor. JS `x || d`
defaulting on a nonnegative number is `orD`. -/
structure DitherSettings where
  palette : PaletteName
  filter : DitherFilter
  steps : Nat
  grainSize : Nat
  brightness : Frac
  contrast : Frac
  inputResolution : Nat

/-- JS `v || d` on a nonnegative integer setting (0 falls back to the default). -/
def orD (v d : Nat) : Nat :=
  if v = 0 then d else v

/-- JS `v || d` on a rational setting. -/
def orQ (v d : Frac) : Frac :=
  if v.eqv 0 then d else v

/-- Result record of DitheringProcessor.prepareData. -/
structure Prepared where
  workingData : Img
  originalWidth : Nat
  originalHeight : Nat
  paletteColors : List RGBA
  brightness : Frac
  contrast : Frac

/-- DitheringProcessor.prepareData: resolve settings, resize to the input
resolution, then downscale by the grain factor with nearest-neighbor. -/
def prepareData (img : Img) (s : DitherSettings) : Prepared :=
  let grainSize : Nat := max 1 (ratRound ((orD s.grainSize 2 : Nat) : Frac)).toNat
  let brightness : Frac := orQ s.brightness 0 / 100
  let contrast : Frac := orQ s.contrast 0 / 100
  let inputResolution : Nat := orD s.inputResolution 800
  let paletteColors := PALETTES s.palette
  let workingData := resizeImage img inputResolution
  let originalWidth := workingData.width
  let originalHeight := workingData.height
  let smallWidth : Nat := max 1 (ratRound ((originalWidth : Frac) / grainSize)).toNat
  let smallHeight : Nat := max 1 (ratRound ((originalHeight : Frac) / grainSize)).toNat
  ⟨resizeImageNearest workingData smallWidth smallHeight,
   originalWidth, originalHeight, paletteColors, brightness, contrast⟩

/-- The `wasmOrderedDither` wrapper: it copies the pixels to offset 0 of the
linear memory and the palette right after them (each entry R, G, B, A; the
`a ?? 255` default never fires, every static palette entry has four
components), calls the fast kernel, and copies the pixel region back. On the
pixel-map view this is exactly the kernel. -/
def wasmOrderedDither (img : Img) (palette : List RGBA) (grainSize : Nat)
    (brightness contrast : Frac) : Img :=
  orderedDither img palette grainSize brightness contrast

/-- DitheringProcessor.processWasm: prepare, run the fast kernel with the
hard-coded `grainSize: 1`, upscale back with nearest-neighbor. -/
def processWasm (img : Img) (s : DitherSettings) : Img :=
  let p := prepareData img s
  let result := wasmOrderedDither p.workingData p.paletteColors 1 p.brightness p.contrast
  resizeImageNearest result p.originalWidth p.originalHeight

/-- DitheringProcessor.processJs: prepare, optional brightness/contrast pass,
ordered dither or palette quantization, upscale back with nearest-neighbor. -/
def processJs (img : Img) (s : DitherSettings) : Img :=
  let steps := orD s.steps 11
  let p := prepareData img s
  let wd :=
    if ¬ p.brightness.eqv 0 ∨ ¬ p.contrast.eqv 0 then
      applyBrightnessContrastJs p.workingData p.brightness p.contrast
    else p.workingData
  let wd2 :=
    match s.filter with
    | .ordered => applyOrderedDither wd steps p.paletteColors
    | .paletteOnly => applyPaletteQuantization wd p.paletteColors
  resizeImageNearest wd2 p.originalWidth p.originalHeight

/-- PixelateProcessor.quantize: identity rounding for 256 or more levels,
otherwise snap to the nearest of the evenly spaced levels. -/
def pixQuantize (value : Frac) (levels : Nat) : ℤ :=
  if 256 ≤ levels then ratRound value
  else
    let step : Frac := 255 / ((levels : Frac) - 1)
    ratRound ((ratRound (value / step) : Frac) * step)

/-- PixelateProcessor.processJs: resolve `blockSize`/`colorLevels`, downscale
to `max(1, floor(dim/blockSize))` cells by averaging the in-bounds pixels of
each full `blockSize × blockSize` window (float division for the averages),
then upscale by indexing `min(floor(x/blockSize), smallDim-1)` — trailing
partial rows/columns therefore reuse the last full cell instead of averaging
their own pixels. -/
def pixelateProcessJs (img : Img) (blockSizeSetting colorLevelsSetting : Nat) : Img :=
  let blockSize : Nat := max 2 (ratRound ((orD blockSizeSetting 8 : Nat) : Frac)).toNat
  let colorLevels : Nat :=
    max 2 (min 256 (ratRound ((orD colorLevelsSetting 256 : Nat) : Frac)).toNat)
  let w := img.width
  let h := img.height
  let smallWidth : Nat := max 1 (w / blockSize)
  let smallHeight : Nat := max 1 (h / blockSize)
  let smallPix : Nat → Nat → RGBA := fun sx sy =>
    let coords :=
      ((List.range blockSize).flatMap (fun dy =>
        (List.range blockSize).map (fun dx =>
          (sx * blockSize + dx, sy * blockSize + dy)))).filter
        (fun q => decide (q.1 < w ∧ q.2 < h))
    let s := coords.foldl (fun acc q => addPix acc (img.pix q.1 q.2)) (⟨0, 0, 0, 0⟩ : Sums)
    let count := coords.length
    ⟨(clamp (pixQuantize ((s.totalR : Frac) / (count : Frac)) colorLevels) 0 255).toNat,
     (clamp (pixQuantize ((s.totalG : Frac) / (count : Frac)) colorLevels) 0 255).toNat,
     (clamp (pixQuantize ((s.totalB : Frac) / (count : Frac)) colorLevels) 0 255).toNat,
     (clamp (ratRound ((s.totalA : Frac) / (count : Frac))) 0 255).toNat⟩
  ⟨w, h, fun x y =>
    if x < w ∧ y < h then
      smallPix (min (x / blockSize) (smallWidth - 1)) (min (y / blockSize) (smallHeight - 1))
    else ⟨0, 0, 0, 0⟩⟩

/-- Module state behind BaseWasmProcessor: the `wasmInitialized` flag together
with the cached promise collapse, in a synchronous model, to whether
initialization already ran; `available` is what `isWasmAvailable()` reports. -/
structure WasmRuntime where
  inited : Bool
  available : Bool
deriving DecidableEq

/-- ensureWasmLoaded: an already-initialized module reports its availability;
otherwise `initWasm` runs, its success value is recorded and returned. -/
def ensureWasmLoaded (st : WasmRuntime) (initSuccess : Bool) :
    Bool × WasmRuntime :=
  if st.inited then (st.available, st)
  else (initSuccess, ⟨true, initSuccess⟩)

/-- BaseWasmProcessor.process: try the fast path when available; a throwing
`processWasm` (the `Except.error` case) is caught, logged, and the call falls
through to the managed `processJs` result. Nothing else of the state changes
on failure. -/
def processSelect (st : WasmRuntime) (initSuccess : Bool)
    (wasmResult : Except Unit Img) (jsResult : Img) : Img × WasmRuntime :=
  let r := ensureWasmLoaded st initSuccess
  if r.1 then
    match wasmResult with
    | Except.ok res => (res, r.2)
    | Except.error _ => (jsResult, r.2)
  else (jsResult, r.2)

/-! Concrete inputs used by counterexamples and witnesses. -/

/-- A 1×1 image whose only pixel is nearly transparent (alpha 0). -/
def imgTransparent : Img :=
  ⟨1, 1, fun _ _ => ⟨100, 100, 100, 0⟩⟩

/-- Dithering settings: white-on-transparent palette, ordered filter, the
default `steps = 11` and `grainSize = 1`, no brightness/contrast adjustment,
`inputResolution = 1` (so that the 1×1 input is not resized). -/
def settingsWhite1 : DitherSettings :=
  ⟨PaletteName.whiteOnTransparent, DitherFilter.ordered, 11, 1, 0, 0, 1⟩

/-- The white-on-transparent palette as a plain color list. -/
def whitePal : List RGBA :=
  [⟨0, 0, 0, 0⟩, ⟨255, 255, 255, 255⟩]

/-- A 1×1 mid-gray opaque image. -/
def imgGray128 : Img :=
  ⟨1, 1, fun _ _ => ⟨128, 128, 128, 255⟩⟩

/-- Claim C1, counterexample/failing-input evaluation: on a 1×1 image whose
pixel is `(100,100,100,0)` and the white-on-transparent settings, the fast
path (`processWasm`) leaves the transparent pixel untouched while the managed
fallback (`processJs`) has no transparency guard and rewrites it to
`palette[0] = (0,0,0,0)`: the two paths do not produce byte-identical
output. -/
theorem dither_fastpath_managed_divergence_C1 :
    (processWasm imgTransparent settingsWhite1).pix 0 0 = ⟨100, 100, 100, 0⟩
    ∧ (processJs imgTransparent settingsWhite1).pix 0 0 = ⟨0, 0, 0, 0⟩
    ∧ (processWasm imgTransparent settingsWhite1).pix 0 0
        ≠ (processJs imgTransparent settingsWhite1).pix 0 0 := by
  refine ⟨by decide, by decide, by decide⟩

/-- Claim C6: fast-path grayscale writes
`gray = floor((R*299 + G*587 + B*114)/1000)` (truncating division) into all
three color channels of every in-bounds pixel with byte-valued channels,
leaves alpha unchanged, and preserves the image dimensions. -/
theorem grayscale_luma_C6 (img : Img) (x y : Nat)
    (hx : x < img.width) (hy : y < img.height)
    (hr : (img.pix x y).r ≤ 255) (hg : (img.pix x y).g ≤ 255)
    (hb : (img.pix x y).b ≤ 255) :
    (grayscale img).width = img.width
    ∧ (grayscale img).height = img.height
    ∧ (grayscale img).pix x y =
        ⟨((img.pix x y).r * 299 + (img.pix x y).g * 587 + (img.pix x y).b * 114) / 1000,
         ((img.pix x y).r * 299 + (img.pix x y).g * 587 + (img.pix x y).b * 114) / 1000,
         ((img.pix x y).r * 299 + (img.pix x y).g * 587 + (img.pix x y).b * 114) / 1000,
         (img.pix x y).a⟩ := by
  refine ⟨rfl, rfl, ?_⟩
  have hsum : (img.pix x y).r * 299 + (img.pix x y).g * 587 + (img.pix x y).b * 114
      ≤ 255000 := by omega
  have hdiv : ((img.pix x y).r * 299 + (img.pix x y).g * 587 + (img.pix x y).b * 114) / 1000
      ≤ 255 := by
    calc ((img.pix x y).r * 299 + (img.pix x y).g * 587 + (img.pix x y).b * 114) / 1000
        ≤ 255000 / 1000 := Nat.div_le_div_right hsum
      _ = 255 := by norm_num
  have hmod : ((img.pix x y).r * 299 + (img.pix x y).g * 587 + (img.pix x y).b * 114) / 1000 % 256
      = ((img.pix x y).r * 299 + (img.pix x y).g * 587 + (img.pix x y).b * 114) / 1000 :=
    Nat.mod_eq_of_lt (by omega)
  simp only [grayscale, grayscalePixel, rgbToGray, hx, hy, and_self, if_true, hmod]

/-- Claim C6 witness: the theorem applied to a concrete 1×1 image. -/
theorem grayscale_luma_C6_witness :
    (grayscale ⟨1, 1, fun _ _ => ⟨10, 20, 30, 40⟩⟩).width = 1
    ∧ (grayscale ⟨1, 1, fun _ _ => ⟨10, 20, 30, 40⟩⟩).height = 1
    ∧ (grayscale ⟨1, 1, fun _ _ => ⟨10, 20, 30, 40⟩⟩).pix 0 0 =
        ⟨(10 * 299 + 20 * 587 + 30 * 114) / 1000,
         (10 * 299 + 20 * 587 + 30 * 114) / 1000,
         (10 * 299 + 20 * 587 + 30 * 114) / 1000, 40⟩ :=
  grayscale_luma_C6 ⟨1, 1, fun _ _ => ⟨10, 20, 30, 40⟩⟩ 0 0
    (by decide) (by decide) (by decide) (by decide) (by decide)

/-- Claim C8: when the fast path is active and `processWasm` throws, the call
returns the managed fallback's result (the error is never surfaced), the
selector state after a failing call equals the state after a successful call,
and the next call attempts the fast path again and returns its result — one
failure does not disable the fast path. -/
theorem processSelect_fallback_C8 (st : WasmRuntime) (initS initS2 : Bool)
    (js js2 r : Img)
    (hav : ((processSelect st initS (Except.error ()) js).2).available = true) :
    (processSelect st initS (Except.error ()) js).1 = js
    ∧ (processSelect st initS (Except.error ()) js).2
        = (processSelect st initS (Except.ok r) js2).2
    ∧ (processSelect ((processSelect st initS (Except.error ()) js).2) initS2
        (Except.ok r) js2).1 = r := by
  obtain ⟨i, a⟩ := st
  cases i <;> cases a <;> cases initS <;>
    simp_all [processSelect, ensureWasmLoaded]

/-- Claim C8 witness: the theorem applied to a fresh (uninitialized) runtime
whose initialization succeeds. -/
theorem processSelect_fallback_C8_witness :
    (processSelect ⟨false, false⟩ true (Except.error ()) imgGray128).1 = imgGray128
    ∧ (processSelect ⟨false, false⟩ true (Except.error ()) imgGray128).2
        = (processSelect ⟨false, false⟩ true (Except.ok imgTransparent) imgGray128).2
    ∧ (processSelect ((processSelect ⟨false, false⟩ true (Except.error ()) imgGray128).2)
        false (Except.ok imgTransparent) imgGray128).1 = imgTransparent :=
  processSelect_fallback_C8 ⟨false, false⟩ true false imgGray128 imgGray128
    imgTransparent rfl

/-- The scan of `findClosestColorAux` only ever moves the best index to the
position of an element it visited, so the result stays below any bound that
dominates the initial index and the scanned range. -/
theorem findClosestColorAux_lt {r g b : ℤ} :
    ∀ (l : List RGBA) (i : Nat) (minD : ℤ) (cIdx n : Nat),
      cIdx < n → i + l.length ≤ n →
      findClosestColorAux r g b l i minD cIdx < n := by
  intro l
  induction l with
  | nil =>
      intro i minD cIdx n h1 _
      simpa [findClosestColorAux] using h1
  | cons c rest ih =>
      intro i minD cIdx n h1 h2
      simp only [List.length_cons] at h2
      simp only [findClosestColorAux]
      split
      · exact ih (i + 1) _ i n (by omega) (by omega)
      · exact ih (i + 1) minD cIdx n h1 (by omega)

/-- The nearest-color index of the fast path is a valid palette index. -/
theorem findClosestColor_lt {r g b : ℤ} {pal : List RGBA} (h : pal ≠ []) :
    findClosestColor r g b pal < pal.length :=
  findClosestColorAux_lt pal 0 2147483647 0 pal.length
    (List.length_pos.mpr h) (by omega)

/-- A `getD` access with an in-range index yields a list member. -/
theorem getD_mem {l : List RGBA} {n : Nat} {d : RGBA} (h : n < l.length) :
    l.getD n d ∈ l := by
  induction l generalizing n with
  | nil => simp at h
  | cons c rest ih =>
      cases n with
      | zero => simp [List.getD]
      | succ m =>
          simp only [List.length_cons] at h
          exact List.mem_cons_of_mem c (ih (by omega))

/-- Claim C3, counterexample: the managed fallback `applyOrderedDither` with
`steps = 1` (12 levels) maps the processed opaque mid-gray pixel to the
interpolated color `(116,116,116,116)`, which is not a member of the supplied
2-entry palette `[(0,0,0,0),(255,255,255,255)]`. -/
theorem applyOrderedDither_nonpalette_C3cex :
    (applyOrderedDither imgGray128 1 whitePal).pix 0 0 = ⟨116, 116, 116, 116⟩
    ∧ (applyOrderedDither imgGray128 1 whitePal).pix 0 0 ∉ whitePal
    ∧ 10 ≤ (imgGray128.pix 0 0).a := by
  refine ⟨by decide, by decide, by decide⟩

/-- Claim C3 (amended to the fast-path kernel): every pixel the fast-path
`orderedDither` processes (in bounds, alpha ≥ 10) is replaced by a member of
the supplied nonempty palette; in particular, for the 2-entry palette
`[(0,0,0,0),(255,255,255,255)]` the output pixel is one of exactly those two
tuples. -/
theorem orderedDither_palette_membership_C3 (img : Img) (pal : List RGBA)
    (gs : Nat) (br ct : Frac) (x y : Nat)
    (hx : x < img.width) (hy : y < img.height) (hpal : pal ≠ [])
    (ha : 10 ≤ (img.pix x y).a) :
    (orderedDither img pal gs br ct).pix x y ∈ pal
    ∧ (pal = whitePal →
        (orderedDither img pal gs br ct).pix x y = ⟨0, 0, 0, 0⟩
        ∨ (orderedDither img pal gs br ct).pix x y = ⟨255, 255, 255, 255⟩) := by
  have hmem : (orderedDither img pal gs br ct).pix x y ∈ pal := by
    simp only [orderedDither, hx, hy, and_self, if_true]
    rw [orderedDitherPixel, if_neg (by omega)]
    exact getD_mem (findClosestColor_lt hpal)
  refine ⟨hmem, fun hw => ?_⟩
  subst hw
  simpa [whitePal] using hmem

/-- Claim C3 witness: the theorem applied to the 1×1 opaque mid-gray image
and the white-on-transparent palette. -/
theorem orderedDither_palette_membership_C3_witness :
    (orderedDither imgGray128 whitePal 1 0 0).pix 0 0 ∈ whitePal
    ∧ (whitePal = whitePal →
        (orderedDither imgGray128 whitePal 1 0 0).pix 0 0 = ⟨0, 0, 0, 0⟩
        ∨ (orderedDither imgGray128 whitePal 1 0 0).pix 0 0 = ⟨255, 255, 255, 255⟩) :=
  orderedDither_palette_membership_C3 imgGray128 whitePal 1 0 0 0 0
    (by decide) (by decide) (by decide) (by decide)

/-- Claim C4, counterexample: the managed fallback `applyOrderedDither` has no
transparency guard — the 1×1 pixel `(100,100,100,0)` with alpha `0 < 10` is
rewritten to `(0,0,0,0)` instead of being byte-identical in the output. -/
theorem applyOrderedDither_transparent_overwritten_C4cex :
    (imgTransparent.pix 0 0).a < 10
    ∧ (applyOrderedDither imgTransparent 11 whitePal).pix 0 0 = ⟨0, 0, 0, 0⟩
    ∧ (applyOrderedDither imgTransparent 11 whitePal).pix 0 0
        ≠ imgTransparent.pix 0 0 := by
  refine ⟨by decide, by decide, by decide⟩

/-- Claim C4 (amended to the fast-path kernel): the fast-path `orderedDither`
leaves every pixel whose alpha is below 10 byte-identical (all four channels),
for every image, palette, grain size and adjustment, and preserves the
dimensions. -/
theorem orderedDither_transparency_guard_C4 (img : Img) (pal : List RGBA)
    (gs : Nat) (br ct : Frac) (x y : Nat)
    (ha : (img.pix x y).a < 10) :
    (orderedDither img pal gs br ct).pix x y = img.pix x y
    ∧ (orderedDither img pal gs br ct).width = img.width
    ∧ (orderedDither img pal gs br ct).height = img.height := by
  refine ⟨?_, rfl, rfl⟩
  simp only [orderedDither]
  split
  · rw [orderedDitherPixel, if_pos ha]
  · rfl

/-- Claim C4 witness: the theorem applied to the transparent 1×1 image. -/
theorem orderedDither_transparency_guard_C4_witness :
    (orderedDither imgTransparent whitePal 1 0 0).pix 0 0 = imgTransparent.pix 0 0
    ∧ (orderedDither imgTransparent whitePal 1 0 0).width = imgTransparent.width
    ∧ (orderedDither imgTransparent whitePal 1 0 0).height = imgTransparent.height :=
  orderedDither_transparency_guard_C4 imgTransparent whitePal 1 0 0 0 0 (by decide)

/-- Dropping at an in-range position exposes the `getD` element. -/
theorem drop_eq_getD_cons {l : List RGBA} {n : Nat} {d : RGBA}
    (h : n < l.length) : l.drop n = l.getD n d :: l.drop (n + 1) := by
  induction l generalizing n with
  | nil => simp at h
  | cons c rest ih =>
      cases n with
      | zero => simp [List.getD]
      | succ m =>
          simp only [List.length_cons] at h
          simpa [List.getD] using ih (by omega)

/-- Invariant-carrying characterization of the `findClosestColor` scan: at
position `i` either the scan has not started (`minD` still `0x7FFFFFFF`) or
the kept index is the lowest index of minimal distance among the first `i`
entries; the final result is then a lowest-index global minimizer. Requires
every distance to beat the initial `0x7FFFFFFF` (true for byte-valued colors). -/
theorem findClosestColorAux_argmin (r g b : ℤ) (pal : List RGBA) (dflt : RGBA)
    (hb : ∀ k, k < pal.length → distRGB r g b (pal.getD k dflt) < 2147483647)
    (hlen : 0 < pal.length) :
    ∀ (n i : Nat) (minD : ℤ) (cIdx : Nat), pal.length - i = n → i ≤ pal.length →
      ((i = 0 ∧ minD = 2147483647 ∧ cIdx = 0) ∨
       (cIdx < i ∧ minD = distRGB r g b (pal.getD cIdx dflt) ∧
        (∀ j, j < i → minD ≤ distRGB r g b (pal.getD j dflt)) ∧
        (∀ j, j < cIdx → minD < distRGB r g b (pal.getD j dflt)))) →
      findClosestColorAux r g b (pal.drop i) i minD cIdx < pal.length ∧
      (∀ j, j < pal.length →
        distRGB r g b (pal.getD (findClosestColorAux r g b (pal.drop i) i minD cIdx) dflt)
          ≤ distRGB r g b (pal.getD j dflt)) ∧
      (∀ j, j < findClosestColorAux r g b (pal.drop i) i minD cIdx →
        distRGB r g b (pal.getD (findClosestColorAux r g b (pal.drop i) i minD cIdx) dflt)
          < distRGB r g b (pal.getD j dflt)) := by
  intro n
  induction n with
  | zero =>
      intro i minD cIdx hn hi hinv
      have hieq : i = pal.length := by omega
      subst hieq
      rw [List.drop_length]
      simp only [findClosestColorAux]
      rcases hinv with ⟨h0, _, hc0⟩ | ⟨hci, hmd, hall, hstrict⟩
      · omega
      · subst hmd
        exact ⟨by omega, hall, hstrict⟩
  | succ m ih =>
      intro i minD cIdx hn hi hinv
      have hilt : i < pal.length := by omega
      rw [@drop_eq_getD_cons pal i dflt hilt]
      simp only [findClosestColorAux]
      split
      · -- the scanned entry strictly improves the best distance
        rename_i hlt
        refine ih (i + 1) _ i (by omega) (by omega) (Or.inr ?_)
        rcases hinv with ⟨h0, hmd, _⟩ | ⟨hci, hmd, hall, _⟩
        · subst h0
          refine ⟨by omega, rfl, ?_, by omega⟩
          intro j hj
          have : j = 0 := by omega
          subst this
          exact le_refl _
        · refine ⟨by omega, rfl, ?_, ?_⟩
          · intro j hj
            rcases Nat.lt_succ_iff_lt_or_eq.mp hj with hj' | hj'
            · exact le_of_lt (lt_of_lt_of_le hlt (hmd ▸ hall j hj'))
            · subst hj'
              exact le_refl _
          · intro j hj
            exact lt_of_lt_of_le hlt (hmd ▸ hall j hj)
      · -- no improvement: the kept index and distance survive
        rename_i hge
        refine ih (i + 1) minD cIdx (by omega) (by omega) (Or.inr ?_)
        rcases hinv with ⟨h0, hmd, _⟩ | ⟨hci, hmd, hall, hstrict⟩
        · exfalso
          subst h0 hmd
          exact hge (hb 0 hlen)
        · refine ⟨by omega, hmd, ?_, hstrict⟩
          intro j hj
          rcases Nat.lt_succ_iff_lt_or_eq.mp hj with hj' | hj'
          · exact hall j hj'
          · subst hj'
            omega

/-- The scans of two palettes that agree on R, G and B entrywise coincide (the
alpha bytes never influence the search). -/
theorem findClosestColorAux_rgb_congr (r g b : ℤ) :
    ∀ (l1 l2 : List RGBA),
      List.Forall₂ (fun c d => c.r = d.r ∧ c.g = d.g ∧ c.b = d.b) l1 l2 →
      ∀ (i : Nat) (minD : ℤ) (cIdx : Nat),
        findClosestColorAux r g b l1 i minD cIdx
          = findClosestColorAux r g b l2 i minD cIdx := by
  intro l1 l2 hrel
  induction hrel with
  | nil => intro i minD cIdx; rfl
  | cons hcd hrest ih =>
      intro i minD cIdx
      rename_i c d _ _
      have hdist : distRGB r g b c = distRGB r g b d := by
        simp [distRGB, hcd.1, hcd.2.1, hcd.2.2]
      simp only [findClosestColorAux, hdist]
      split
      · exact ih (i + 1) _ i
      · exact ih (i + 1) minD cIdx

/-- Claim C2, counterexample: of the two nearest-color searches the claim
cites, the managed `DitheringProcessor.findNearestColor` includes alpha in
its squared distance (`da*da`), so it does not minimize distance over R, G, B
only: for the opaque black color `(0,0,0,255)` and the palette
`[(0,0,0,0),(10,10,10,255)]` it returns the second entry, whose R,G,B-only
distance (300) is strictly larger than the first entry's (0). -/
theorem findNearestColor_alpha_included_C2cex :
    findNearestColor ⟨0, 0, 0, 255⟩ [⟨0, 0, 0, 0⟩, ⟨10, 10, 10, 255⟩]
        = ⟨10, 10, 10, 255⟩
    ∧ distRGB 0 0 0 ⟨0, 0, 0, 0⟩ < distRGB 0 0 0 ⟨10, 10, 10, 255⟩
    ∧ distRGBA ⟨0, 0, 0, 255⟩ ⟨10, 10, 10, 255⟩
        < distRGBA ⟨0, 0, 0, 255⟩ ⟨0, 0, 0, 0⟩ := by
  refine ⟨by decide, by decide, by decide⟩

/-- Claim C2 (amended to the fast-path search actually called by the wasm
`orderedDither`): for byte-valued input colors and palettes, the fast path's
nearest-color search returns a valid palette index whose squared R,G,B
distance is minimal, every strictly smaller index has strictly larger
distance (ties break to the lowest index), and the result is unchanged if the
palette's alpha bytes are replaced arbitrarily (alpha is excluded from the
distance). -/
theorem findClosestColor_argmin_C2 (r g b : ℤ) (pal : List RGBA)
    (hpal : pal ≠ [])
    (hr0 : 0 ≤ r) (hr1 : r ≤ 255) (hg0 : 0 ≤ g) (hg1 : g ≤ 255)
    (hb0 : 0 ≤ b) (hb1 : b ≤ 255)
    (hbytes : ∀ c ∈ pal, c.r ≤ 255 ∧ c.g ≤ 255 ∧ c.b ≤ 255) :
    findClosestColor r g b pal < pal.length
    ∧ (∀ j, j < pal.length →
        distRGB r g b (pal.getD (findClosestColor r g b pal) ⟨0, 0, 0, 0⟩)
          ≤ distRGB r g b (pal.getD j ⟨0, 0, 0, 0⟩))
    ∧ (∀ j, j < findClosestColor r g b pal →
        distRGB r g b (pal.getD (findClosestColor r g b pal) ⟨0, 0, 0, 0⟩)
          < distRGB r g b (pal.getD j ⟨0, 0, 0, 0⟩))
    ∧ (∀ pal2, List.Forall₂ (fun c d => c.r = d.r ∧ c.g = d.g ∧ c.b = d.b) pal pal2 →
        findClosestColor r g b pal = findClosestColor r g b pal2) := by
  have hlen : 0 < pal.length := List.length_pos.mpr hpal
  have hb : ∀ k, k < pal.length →
      distRGB r g b (pal.getD k ⟨0, 0, 0, 0⟩) < 2147483647 := by
    intro k hk
    have hmem := @getD_mem pal k ⟨0, 0, 0, 0⟩ hk
    obtain ⟨hcr, hcg, hcb⟩ := hbytes _ hmem
    set c := pal.getD k ⟨0, 0, 0, 0⟩ with hc
    have hcr' : (c.r : ℤ) ≤ 255 := by exact_mod_cast hcr
    have hcg' : (c.g : ℤ) ≤ 255 := by exact_mod_cast hcg
    have hcb' : (c.b : ℤ) ≤ 255 := by exact_mod_cast hcb
    have hcr0 : (0 : ℤ) ≤ (c.r : ℤ) := Int.ofNat_nonneg _
    have hcg0 : (0 : ℤ) ≤ (c.g : ℤ) := Int.ofNat_nonneg _
    have hcb0 : (0 : ℤ) ≤ (c.b : ℤ) := Int.ofNat_nonneg _
    have h1 : (r - (c.r : ℤ)) * (r - (c.r : ℤ)) ≤ 65025 := by nlinarith
    have h2 : (g - (c.g : ℤ)) * (g - (c.g : ℤ)) ≤ 65025 := by nlinarith
    have h3 : (b - (c.b : ℤ)) * (b - (c.b : ℤ)) ≤ 65025 := by nlinarith
    simp only [distRGB]
    omega
  have hmain := findClosestColorAux_argmin r g b pal ⟨0, 0, 0, 0⟩ hb hlen
    pal.length 0 2147483647 0 (by omega) (by omega) (Or.inl ⟨rfl, rfl, rfl⟩)
  rw [List.drop_zero] at hmain
  refine ⟨hmain.1, hmain.2.1, hmain.2.2, ?_⟩
  intro pal2 hrel
  exact findClosestColorAux_rgb_congr r g b pal pal2 hrel 0 2147483647 0

/-- Claim C2 witness: the theorem applied to the color `(100,100,100)` and
the white-on-transparent palette. -/
theorem findClosestColor_argmin_C2_witness :
    findClosestColor 100 100 100 whitePal < whitePal.length
    ∧ (∀ j, j < whitePal.length →
        distRGB 100 100 100 (whitePal.getD (findClosestColor 100 100 100 whitePal) ⟨0, 0, 0, 0⟩)
          ≤ distRGB 100 100 100 (whitePal.getD j ⟨0, 0, 0, 0⟩))
    ∧ (∀ j, j < findClosestColor 100 100 100 whitePal →
        distRGB 100 100 100 (whitePal.getD (findClosestColor 100 100 100 whitePal) ⟨0, 0, 0, 0⟩)
          < distRGB 100 100 100 (whitePal.getD j ⟨0, 0, 0, 0⟩))
    ∧ (∀ pal2, List.Forall₂ (fun c d => c.r = d.r ∧ c.g = d.g ∧ c.b = d.b) whitePal pal2 →
        findClosestColor 100 100 100 whitePal = findClosestColor 100 100 100 pal2) :=
  findClosestColor_argmin_C2 100 100 100 whitePal (by decide)
    (by decide) (by decide) (by decide) (by decide) (by decide) (by decide)
    (by decide)

/-! Partition structure of the block grid. -/

/-- Counting-loop indices: `k < ceil(len/bs)` exactly when the `k`-th start is
still inside the image. -/
theorem lt_ceilDiv_iff_mul_lt {len bs k : Nat} (hbs : 0 < bs) :
    k < (len + bs - 1) / bs ↔ k * bs < len := by
  cases len with
  | zero =>
      simp only [Nat.zero_add]
      constructor
      · intro hk
        have : bs - 1 < bs := by omega
        have h0 : (bs - 1) / bs = 0 := Nat.div_eq_of_lt this
        omega
      · omega
  | succ m =>
      have h1 : m + 1 + bs - 1 = m + bs := by omega
      rw [h1, Nat.add_div_right _ hbs]
      constructor
      · intro hk
        have hle : k ≤ m / bs := by omega
        have := (Nat.le_div_iff_mul_le hbs).mp hle
        omega
      · intro hk
        have hle : k * bs ≤ m := by omega
        have := (Nat.le_div_iff_mul_le hbs).mpr hle
        omega

/-- Membership in the loop-start list. -/
theorem mem_starts_iff {len bs i : Nat} (hbs : 0 < bs) :
    i ∈ starts len bs ↔ ∃ k, i = k * bs ∧ k * bs < len := by
  simp only [starts, List.mem_map, List.mem_range]
  constructor
  · rintro ⟨k, hk, rfl⟩
    exact ⟨k, rfl, (lt_ceilDiv_iff_mul_lt hbs).mp hk⟩
  · rintro ⟨k, rfl, hk⟩
    exact ⟨k, (lt_ceilDiv_iff_mul_lt hbs).mpr hk, rfl⟩

/-- Every loop start is inside the image. -/
theorem starts_lt {len bs i : Nat} (hbs : 0 < bs) (h : i ∈ starts len bs) :
    i < len := by
  obtain ⟨k, rfl, hk⟩ := (mem_starts_iff hbs).mp h
  exact hk

/-- The block start of an in-bounds coordinate occurs in the loop-start list. -/
theorem bStart_mem_starts {len bs x : Nat} (hbs : 0 < bs) (hx : x < len) :
    bStart bs x ∈ starts len bs := by
  refine (mem_starts_iff hbs).mpr ⟨x / bs, rfl, ?_⟩
  calc x / bs * bs ≤ x := Nat.div_mul_le_self x bs
    _ < len := hx

/-- A coordinate lies in the clipped span of a block start exactly when that
start is its block start (for in-bounds coordinates). -/
theorem region_iff {len bs i x : Nat} (hbs : 0 < bs) (hi : i ∈ starts len bs) :
    (i ≤ x ∧ x < i + min bs (len - i)) ↔ (x < len ∧ bStart bs x = i) := by
  obtain ⟨k, rfl, hk⟩ := (mem_starts_iff hbs).mp hi
  have hdm := Nat.div_add_mod x bs
  have hmod := Nat.mod_lt x hbs
  have hminr : min bs (len - k * bs) ≤ len - k * bs := Nat.min_le_right _ _
  have hminl : min bs (len - k * bs) ≤ bs := Nat.min_le_left _ _
  constructor
  · rintro ⟨hlo, hhi⟩
    have hxlen : x < len := by omega
    refine ⟨hxlen, ?_⟩
    have hxbs : x < k * bs + bs := by omega
    have hdiv : x / bs = k :=
      Nat.div_eq_of_lt_le hlo (by rw [Nat.succ_mul]; exact hxbs)
    simp [bStart, hdiv]
  · rintro ⟨hxlen, hbx⟩
    have hlo : k * bs ≤ x := by
      rw [← hbx]
      exact Nat.div_mul_le_self x bs
    have hhi : x < k * bs + bs := by
      have hcomm : bs * (x / bs) = k * bs := by
        rw [Nat.mul_comm]
        exact hbx
      omega
    refine ⟨hlo, ?_⟩
    rw [Nat.min_def]
    split <;> omega

/-- The loop-start list is duplicate-free. -/
theorem starts_nodup {len bs : Nat} (hbs : 0 < bs) : (starts len bs).Nodup :=
  (List.nodup_range _).map fun _ _ hab => Nat.eq_of_mul_eq_mul_right hbs hab

/-- Membership in the block list. -/
theorem mem_blocks {w h bs : Nat} {p : Nat × Nat} :
    p ∈ blocks w h bs ↔ p.1 ∈ starts w bs ∧ p.2 ∈ starts h bs := by
  obtain ⟨i, j⟩ := p
  simp only [blocks, List.mem_flatMap, List.mem_map, Prod.mk.injEq]
  constructor
  · rintro ⟨j', hj', i', hi', rfl, rfl⟩
    exact ⟨hi', hj'⟩
  · rintro ⟨hi, hj⟩
    exact ⟨j, hj, i, hi, rfl, rfl⟩

/-- The block list is duplicate-free. -/
theorem blocks_nodup {w h bs : Nat} (hbs : 0 < bs) : (blocks w h bs).Nodup := by
  rw [blocks]
  have hw := @starts_nodup w bs hbs
  generalize starts w bs = is at hw
  have hh := @starts_nodup h bs hbs
  generalize starts h bs = js at hh
  induction js with
  | nil => simp
  | cons j js ih =>
      rw [List.flatMap_cons]
      have hjtl : js.Nodup := (List.nodup_cons.mp hh).2
      refine List.Nodup.append ?_ (ih hjtl) ?_
      · exact hw.map fun a b hab => congrArg Prod.fst hab
      · intro p hp1 hp2
        obtain ⟨i, _, rfl⟩ := List.mem_map.mp hp1
        obtain ⟨j', hj', hq⟩ := List.mem_flatMap.mp hp2
        obtain ⟨i', _, heq⟩ := List.mem_map.mp hq
        have hjj : j' = j := congrArg Prod.snd heq
        exact (List.nodup_cons.mp hh).1 (hjj ▸ hj')

/-- Membership in the scanned coordinates of one block. -/
theorem mem_blockCoords {i j bw bh : Nat} {q : Nat × Nat} :
    q ∈ blockCoords i j bw bh ↔
      i ≤ q.1 ∧ q.1 < i + bw ∧ j ≤ q.2 ∧ q.2 < j + bh := by
  obtain ⟨u, v⟩ := q
  simp only [blockCoords, List.mem_flatMap, List.mem_map, List.mem_range,
    Prod.mk.injEq]
  constructor
  · rintro ⟨py, hpy, px, hpx, rfl, rfl⟩
    omega
  · rintro ⟨h1, h2, h3, h4⟩
    exact ⟨v - j, by omega, u - i, by omega, by omega, by omega⟩

/-- The scan of one block visits exactly `blockH * blockW` pixels. -/
theorem blockCoords_length (i j bw bh : Nat) :
    (blockCoords i j bw bh).length = bh * bw := by
  induction bh with
  | zero => simp [blockCoords]
  | succ m ih =>
      simp only [blockCoords, List.range_succ, List.flatMap_append,
        List.length_append, List.flatMap_cons, List.flatMap_nil] at *
      simp [ih, Nat.succ_mul]

/-- Congruence of the block-summing fold in the buffer argument. -/
theorem foldl_addPix_congr (pix1 pix2 : Nat → Nat → RGBA) :
    ∀ (L : List (Nat × Nat)) (acc : Sums),
      (∀ q ∈ L, pix1 q.1 q.2 = pix2 q.1 q.2) →
      L.foldl (fun s q => addPix s (pix1 q.1 q.2)) acc
        = L.foldl (fun s q => addPix s (pix2 q.1 q.2)) acc := by
  intro L
  induction L with
  | nil => intro acc _; rfl
  | cons q L ih =>
      intro acc hq
      rw [List.foldl_cons, List.foldl_cons, hq q (List.mem_cons_self q L),
        ih _ (fun p hp => hq p (List.mem_cons_of_mem _ hp))]

/-- Congruence of the block sums in the buffer argument. -/
theorem blockSums_congr {pix1 pix2 : Nat → Nat → RGBA} {i j bw bh : Nat}
    (h : ∀ q ∈ blockCoords i j bw bh, pix1 q.1 q.2 = pix2 q.1 q.2) :
    blockSums pix1 i j bw bh = blockSums pix2 i j bw bh :=
  foldl_addPix_congr pix1 pix2 _ _ h

/-- Congruence of the block fill color in the buffer argument. -/
theorem stepColor_congr (mk : Sums → Nat → RGBA) (w h bs : Nat)
    {pix1 pix2 : Nat → Nat → RGBA} (i j : Nat)
    (hagree : ∀ q ∈ blockCoords i j (min bs (w - i)) (min bs (h - j)),
      pix1 q.1 q.2 = pix2 q.1 q.2) :
    stepColor mk w h bs pix1 i j = stepColor mk w h bs pix2 i j := by
  simp only [stepColor]
  rw [blockSums_congr hagree]

/-- Pointwise description of one block-fill step: the block's region is
exactly the set of in-bounds coordinates whose block start is the block. -/
theorem stepBlock_pix (mk : Sums → Nat → RGBA) (w h bs : Nat) (hbs : 0 < bs)
    (pix : Nat → Nat → RGBA) (b1 b2 : Nat)
    (hb1 : b1 ∈ starts w bs) (hb2 : b2 ∈ starts h bs) (x y : Nat) :
    stepBlock mk w h bs pix (b1, b2) x y =
      if x < w ∧ y < h ∧ bStart bs x = b1 ∧ bStart bs y = b2
      then stepColor mk w h bs pix b1 b2
      else pix x y := by
  simp only [stepBlock]
  by_cases hcond : b1 ≤ x ∧ x < b1 + min bs (w - b1) ∧ b2 ≤ y ∧ y < b2 + min bs (h - b2)
  · have hx := (region_iff hbs hb1).mp ⟨hcond.1, hcond.2.1⟩
    have hy := (region_iff hbs hb2).mp ⟨hcond.2.2.1, hcond.2.2.2⟩
    rw [if_pos hcond, if_pos ⟨hx.1, hy.1, hx.2, hy.2⟩]
  · rw [if_neg hcond, if_neg]
    rintro ⟨hxw, hyh, hbx, hby⟩
    exact hcond ⟨((region_iff hbs hb1).mpr ⟨hxw, hbx⟩).1,
      ((region_iff hbs hb1).mpr ⟨hxw, hbx⟩).2,
      ((region_iff hbs hb2).mpr ⟨hyh, hby⟩).1,
      ((region_iff hbs hb2).mpr ⟨hyh, hby⟩).2⟩

/-- Sequential in-place block processing computes, at every coordinate covered
by a processed block, the fill color of that block with respect to the
original buffer contents: each block reads only its own (not yet overwritten)
region, and distinct blocks write disjoint regions. -/
theorem foldl_stepBlock_pix (mk : Sums → Nat → RGBA) (w h bs : Nat)
    (hbs : 0 < bs) (orig : Nat → Nat → RGBA) :
    ∀ (L : List (Nat × Nat)) (pix0 : Nat → Nat → RGBA),
      (∀ b ∈ L, b.1 ∈ starts w bs ∧ b.2 ∈ starts h bs) →
      L.Nodup →
      (∀ b ∈ L, ∀ u v : Nat, u < w → v < h →
        bStart bs u = b.1 → bStart bs v = b.2 → pix0 u v = orig u v) →
      ∀ x y, (L.foldl (stepBlock mk w h bs) pix0) x y =
        if x < w ∧ y < h ∧ (bStart bs x, bStart bs y) ∈ L
        then stepColor mk w h bs orig (bStart bs x) (bStart bs y)
        else pix0 x y := by
  intro L
  induction L with
  | nil =>
      intro pix0 _ _ _ x y
      simp
  | cons b L ih =>
      obtain ⟨b1, b2⟩ := b
      intro pix0 hvalid hnd hagree x y
      obtain ⟨hb1, hb2⟩ := hvalid (b1, b2) (List.mem_cons_self _ _)
      have hndc := List.nodup_cons.mp hnd
      have hregion : ∀ q ∈ blockCoords b1 b2 (min bs (w - b1)) (min bs (h - b2)),
          pix0 q.1 q.2 = orig q.1 q.2 := by
        intro q hq
        obtain ⟨h1, h2, h3, h4⟩ := mem_blockCoords.mp hq
        have hxq := (region_iff hbs hb1).mp ⟨h1, h2⟩
        have hyq := (region_iff hbs hb2).mp ⟨h3, h4⟩
        exact hagree (b1, b2) (List.mem_cons_self _ _) q.1 q.2 hxq.1 hyq.1 hxq.2 hyq.2
      have hstep : stepColor mk w h bs pix0 b1 b2 = stepColor mk w h bs orig b1 b2 :=
        stepColor_congr mk w h bs b1 b2 hregion
      have hagree1 : ∀ b' ∈ L, ∀ u v : Nat, u < w → v < h →
          bStart bs u = b'.1 → bStart bs v = b'.2 →
          stepBlock mk w h bs pix0 (b1, b2) u v = orig u v := by
        intro b' hb' u v hu hv hsu hsv
        rw [stepBlock_pix mk w h bs hbs pix0 b1 b2 hb1 hb2 u v]
        have hne : ¬(u < w ∧ v < h ∧ bStart bs u = b1 ∧ bStart bs v = b2) := by
          rintro ⟨_, _, hub, hvb⟩
          apply hndc.1
          have hbb : (b1, b2) = b' := by
            have e1 : b1 = b'.1 := by rw [← hub, hsu]
            have e2 : b2 = b'.2 := by rw [← hvb, hsv]
            rw [e1, e2]
          rw [hbb]
          exact hb'
        rw [if_neg hne]
        exact hagree b' (List.mem_cons_of_mem _ hb') u v hu hv hsu hsv
      rw [List.foldl_cons,
        ih (stepBlock mk w h bs pix0 (b1, b2))
          (fun b' hb' => hvalid b' (List.mem_cons_of_mem _ hb')) hndc.2 hagree1 x y]
      by_cases hin : x < w ∧ y < h ∧ (bStart bs x, bStart bs y) ∈ L
      · rw [if_pos hin, if_pos ⟨hin.1, hin.2.1, List.mem_cons_of_mem _ hin.2.2⟩]
      · rw [if_neg hin, stepBlock_pix mk w h bs hbs pix0 b1 b2 hb1 hb2 x y]
        by_cases hhead : x < w ∧ y < h ∧ bStart bs x = b1 ∧ bStart bs y = b2
        · rw [if_pos hhead, hstep,
            if_pos ⟨hhead.1, hhead.2.1, by rw [hhead.2.2.1, hhead.2.2.2]; exact List.mem_cons_self _ _⟩,
            hhead.2.2.1, hhead.2.2.2]
        · rw [if_neg hhead, if_neg]
          rintro ⟨hxw, hyh, hmem⟩
          rcases List.mem_cons.mp hmem with hpair | htl
          · have e1 : bStart bs x = b1 := congrArg Prod.fst hpair
            have e2 : bStart bs y = b2 := congrArg Prod.snd hpair
            exact hhead ⟨hxw, hyh, e1, e2⟩
          · exact hin ⟨hxw, hyh, htl⟩

/-- Per-pixel description of the generic pixelate traversal. -/
theorem pixelateGen_pix (mk : Sums → Nat → RGBA) (img : Img) (bs : Nat)
    (hbs : 0 < bs) (x y : Nat) (hx : x < img.width) (hy : y < img.height) :
    (pixelateGen mk img bs).pix x y
      = stepColor mk img.width img.height bs img.pix (bStart bs x) (bStart bs y) := by
  have hmain := foldl_stepBlock_pix mk img.width img.height bs hbs img.pix
    (blocks img.width img.height bs) img.pix
    (fun b hb => mem_blocks.mp hb) (blocks_nodup hbs)
    (fun _ _ _ _ _ _ _ _ => rfl) x y
  have hmem : (bStart bs x, bStart bs y) ∈ blocks img.width img.height bs :=
    mem_blocks.mpr ⟨bStart_mem_starts hbs hx, bStart_mem_starts hbs hy⟩
  calc (pixelateGen mk img bs).pix x y
      = List.foldl (stepBlock mk img.width img.height bs) img.pix
          (blocks img.width img.height bs) x y := rfl
    _ = stepColor mk img.width img.height bs img.pix (bStart bs x) (bStart bs y) := by
        rw [hmain, if_pos ⟨hx, hy, hmem⟩]

/-- A 10×10 image: columns 8 and 9 are white, the rest is opaque black. -/
def imgStripes : Img :=
  ⟨10, 10, fun x _ => if 8 ≤ x then ⟨255, 255, 255, 255⟩ else ⟨0, 0, 0, 255⟩⟩

/-- Claim C5, counterexample: the managed pixelate fallback does not clip the
last block column to the edge. On the striped 10×10 image with `blockSize=4`,
the pixel `(8,0)` should carry the average of its own clipped 2×4 block (pure
white), but `processJs` reuses the average of the adjacent full block
(pure black). -/
theorem pixelateProcessJs_partial_block_C5cex :
    (pixelateProcessJs imgStripes 4 256).pix 8 0 = ⟨0, 0, 0, 255⟩
    ∧ avgMk (blockSums imgStripes.pix 8 0 (min 4 (10 - 8)) (min 4 (10 - 0)))
        (min 4 (10 - 0) * min 4 (10 - 8)) = ⟨255, 255, 255, 255⟩
    ∧ (pixelateProcessJs imgStripes 4 256).pix 8 0
        ≠ avgMk (blockSums imgStripes.pix 8 0 (min 4 (10 - 8)) (min 4 (10 - 0)))
            (min 4 (10 - 0) * min 4 (10 - 8)) := by
  refine ⟨by decide, by decide, by decide⟩

/-- Claim C5 (amended to the fast-path kernels): both pixelate kernels
partition the image into origin-anchored blocks whose last row/column is
clipped to `min(blockSize, edge distance)`, fill every pixel of a block with
the color computed from the channel sums over exactly that block's pixels
(truncating average, optionally quantized), the 10×10/blockSize-4 partition
has column widths `4,4,2`, and every coordinate any block scan reads is in
bounds. -/
theorem pixelate_block_partition_C5 (img : Img) (bs colorLevels : Nat)
    (hbs : 0 < bs) (x y : Nat) (hx : x < img.width) (hy : y < img.height) :
    (pixelate img bs).pix x y
      = avgMk (blockSums img.pix (bStart bs x) (bStart bs y)
          (min bs (img.width - bStart bs x)) (min bs (img.height - bStart bs y)))
          (min bs (img.height - bStart bs y) * min bs (img.width - bStart bs x))
    ∧ (pixelateWithColors img bs colorLevels).pix x y
      = quantMk colorLevels (blockSums img.pix (bStart bs x) (bStart bs y)
          (min bs (img.width - bStart bs x)) (min bs (img.height - bStart bs y)))
          (min bs (img.height - bStart bs y) * min bs (img.width - bStart bs x))
    ∧ (starts 10 4).map (fun i => min 4 (10 - i)) = [4, 4, 2]
    ∧ (∀ b ∈ blocks img.width img.height bs,
        ∀ q ∈ blockCoords b.1 b.2 (min bs (img.width - b.1)) (min bs (img.height - b.2)),
          q.1 < img.width ∧ q.2 < img.height) := by
  refine ⟨?_, ?_, by decide, ?_⟩
  · rw [show pixelate img bs = pixelateGen avgMk img bs from rfl,
      pixelateGen_pix avgMk img bs hbs x y hx hy]
    simp only [stepColor, blockCoords_length]
  · rw [show pixelateWithColors img bs colorLevels
        = pixelateGen (quantMk colorLevels) img bs from rfl,
      pixelateGen_pix (quantMk colorLevels) img bs hbs x y hx hy]
    simp only [stepColor, blockCoords_length]
  · intro b hb q hq
    obtain ⟨hb1, hb2⟩ := mem_blocks.mp hb
    obtain ⟨h1, h2, h3, h4⟩ := mem_blockCoords.mp hq
    exact ⟨((region_iff hbs hb1).mp ⟨h1, h2⟩).1, ((region_iff hbs hb2).mp ⟨h3, h4⟩).1⟩

/-- Claim C5 witness: the theorem applied to the striped 10×10 image at pixel
`(8,0)` with block size 4. -/
theorem pixelate_block_partition_C5_witness :
    (pixelate imgStripes 4).pix 8 0
      = avgMk (blockSums imgStripes.pix (bStart 4 8) (bStart 4 0)
          (min 4 (imgStripes.width - bStart 4 8)) (min 4 (imgStripes.height - bStart 4 0)))
          (min 4 (imgStripes.height - bStart 4 0) * min 4 (imgStripes.width - bStart 4 8))
    ∧ (pixelateWithColors imgStripes 4 8).pix 8 0
      = quantMk 8 (blockSums imgStripes.pix (bStart 4 8) (bStart 4 0)
          (min 4 (imgStripes.width - bStart 4 8)) (min 4 (imgStripes.height - bStart 4 0)))
          (min 4 (imgStripes.height - bStart 4 0) * min 4 (imgStripes.width - bStart 4 8))
    ∧ (starts 10 4).map (fun i => min 4 (10 - i)) = [4, 4, 2]
    ∧ (∀ b ∈ blocks imgStripes.width imgStripes.height 4,
        ∀ q ∈ blockCoords b.1 b.2 (min 4 (imgStripes.width - b.1)) (min 4 (imgStripes.height - b.2)),
          q.1 < imgStripes.width ∧ q.2 < imgStripes.height) :=
  pixelate_block_partition_C5 imgStripes 4 8 (by decide) 8 0 (by decide) (by decide)

/-- Constant-valued block sums: summing a block whose pixels all carry the
same color yields the pixel count times each channel. -/
theorem foldl_addPix_const (pix : Nat → Nat → RGBA) (c : RGBA) :
    ∀ (L : List (Nat × Nat)) (acc : Sums),
      (∀ q ∈ L, pix q.1 q.2 = c) →
      L.foldl (fun s q => addPix s (pix q.1 q.2)) acc
        = ⟨acc.totalR + L.length * c.r, acc.totalG + L.length * c.g,
           acc.totalB + L.length * c.b, acc.totalA + L.length * c.a⟩ := by
  intro L
  induction L with
  | nil =>
      intro acc _
      cases acc
      simp
  | cons q L ih =>
      intro acc hq
      rw [List.foldl_cons, hq q (List.mem_cons_self q L),
        ih _ (fun p hp => hq p (List.mem_cons_of_mem _ hp))]
      simp only [addPix, List.length_cons, Nat.succ_mul]
      congr 1 <;> omega

/-- Claim C10: plain pixelate is idempotent — a second pass with the same
block size recomputes, for every block, the truncating average of a constant
block, which is that constant again. -/
theorem pixelate_idempotent_C10 (img : Img) (bs : Nat) (hbs : 0 < bs)
    (x y : Nat) (hx : x < img.width) (hy : y < img.height) :
    (pixelate (pixelate img bs) bs).width = img.width
    ∧ (pixelate (pixelate img bs) bs).height = img.height
    ∧ (pixelate (pixelate img bs) bs).pix x y = (pixelate img bs).pix x y := by
  refine ⟨rfl, rfl, ?_⟩
  have hi : bStart bs x ∈ starts img.width bs := bStart_mem_starts hbs hx
  have hj : bStart bs y ∈ starts img.height bs := bStart_mem_starts hbs hy
  set i := bStart bs x with hidef
  set j := bStart bs y with hjdef
  set bw := min bs (img.width - i) with hbw
  set bh := min bs (img.height - j) with hbh
  set c := avgMk (blockSums img.pix i j bw bh) (bh * bw) with hc
  have h1 : (pixelate img bs).pix x y = c :=
    (pixelate_block_partition_C5 img bs 2 hbs x y hx hy).1
  have hconst : ∀ q ∈ blockCoords i j bw bh, (pixelate img bs).pix q.1 q.2 = c := by
    intro q hq
    obtain ⟨hq1, hq2, hq3, hq4⟩ := mem_blockCoords.mp hq
    have hxq := (region_iff hbs hi).mp ⟨hq1, hq2⟩
    have hyq := (region_iff hbs hj).mp ⟨hq3, hq4⟩
    have := (pixelate_block_partition_C5 img bs 2 hbs q.1 q.2 hxq.1 hyq.1).1
    rw [this, hxq.2, hyq.2]
  have h2 : (pixelate (pixelate img bs) bs).pix x y
      = avgMk (blockSums (pixelate img bs).pix i j bw bh) (bh * bw) :=
    (pixelate_block_partition_C5 (pixelate img bs) bs 2 hbs x y hx hy).1
  have hsums : blockSums (pixelate img bs).pix i j bw bh
      = ⟨(bh * bw) * c.r, (bh * bw) * c.g, (bh * bw) * c.b, (bh * bw) * c.a⟩ := by
    rw [blockSums, foldl_addPix_const (pixelate img bs).pix c _ _ hconst,
      blockCoords_length]
    simp
  have hbwpos : 0 < bw := by
    have := starts_lt hbs hi
    rw [hbw]
    omega
  have hbhpos : 0 < bh := by
    have := starts_lt hbs hj
    rw [hbh]
    omega
  have hn : 0 < bh * bw := Nat.mul_pos hbhpos hbwpos
  have hclt : c.r < 256 ∧ c.g < 256 ∧ c.b < 256 ∧ c.a < 256 := by
    rw [hc]
    exact ⟨Nat.mod_lt _ (by norm_num), Nat.mod_lt _ (by norm_num),
      Nat.mod_lt _ (by norm_num), Nat.mod_lt _ (by norm_num)⟩
  rw [h2, hsums, h1]
  simp only [avgMk, Nat.mul_div_cancel_left _ hn]
  obtain ⟨c1, c2, c3, c4⟩ := hclt
  rw [Nat.mod_eq_of_lt c1, Nat.mod_eq_of_lt c2, Nat.mod_eq_of_lt c3,
    Nat.mod_eq_of_lt c4]

/-- Claim C10 witness: the theorem applied to the striped 10×10 image. -/
theorem pixelate_idempotent_C10_witness :
    (pixelate (pixelate imgStripes 4) 4).width = imgStripes.width
    ∧ (pixelate (pixelate imgStripes 4) 4).height = imgStripes.height
    ∧ (pixelate (pixelate imgStripes 4) 4).pix 9 7 = (pixelate imgStripes 4).pix 9 7 :=
  pixelate_idempotent_C10 imgStripes 4 (by decide) 9 7 (by decide) (by decide)

/-! Byte-level frame reasoning for the halftone kernel. -/

/-- A byte store does not change other addresses. -/
theorem store8_outside {m : Nat → Nat} {addr v a : Nat} (h : a ≠ addr) :
    store8 m addr v a = m a := by
  simp [store8, h]

/-- A pixel store does not change addresses outside its four bytes. -/
theorem storePixel_outside {m : Nat → Nat} {base : Nat} {c : RGBA} {a : Nat}
    (h : a < base ∨ base + 4 ≤ a) : storePixel m base c a = m a := by
  simp only [storePixel, store8]
  rw [if_neg (by omega), if_neg (by omega), if_neg (by omega), if_neg (by omega)]

/-- Reading back the pixel just stored yields its byte-wrapped value. -/
theorem storePixel_read_self (m : Nat → Nat) (base : Nat) (c : RGBA) :
    readPixel (storePixel m base c) base = wrap256 c := by
  have h1 : storePixel m base c base = c.r % 256 := by
    simp only [storePixel, store8]
    rw [if_neg (by omega), if_neg (by omega), if_neg (by omega)]
    simp
  have h2 : storePixel m base c (base + 1) = c.g % 256 := by
    simp only [storePixel, store8]
    rw [if_neg (by omega), if_neg (by omega)]
    simp
  have h3 : storePixel m base c (base + 2) = c.b % 256 := by
    simp only [storePixel, store8]
    rw [if_neg (by omega)]
    simp
  have h4 : storePixel m base c (base + 3) = c.a % 256 := by
    simp only [storePixel, store8]
    simp
  simp [readPixel, wrap256, h1, h2, h3, h4]

/-- A pixel store does not change a disjoint pixel. -/
theorem storePixel_read_other {m : Nat → Nat} {base : Nat} {c : RGBA}
    {base' : Nat} (h : base' + 4 ≤ base ∨ base + 4 ≤ base') :
    readPixel (storePixel m base c) base' = readPixel m base' := by
  simp only [readPixel]
  rw [storePixel_outside (by omega), storePixel_outside (by omega),
    storePixel_outside (by omega), storePixel_outside (by omega)]

/-- Unrolling one step of the background fill. -/
theorem fillBg_succ (m : Nat → Nat) (outPtr n : Nat) (bg : RGBA) :
    fillBg m outPtr (n + 1) bg
      = storePixel (fillBg m outPtr n bg) (outPtr + n * 4) bg := by
  simp only [fillBg, List.range_succ, List.foldl_append, List.foldl_cons,
    List.foldl_nil]

/-- The background fill writes only inside the output region. -/
theorem fillBg_outside {m : Nat → Nat} {outPtr : Nat} {bg : RGBA} :
    ∀ {n a : Nat}, (a < outPtr ∨ outPtr + n * 4 ≤ a) →
      fillBg m outPtr n bg a = m a := by
  intro n
  induction n with
  | zero => intro a _; rfl
  | succ k ih =>
      intro a h
      rw [fillBg_succ, storePixel_outside (by omega)]
      exact ih (by omega)

/-- After the background fill, every output pixel carries the background. -/
theorem fillBg_read {m : Nat → Nat} {outPtr : Nat} {bg : RGBA} :
    ∀ {n i : Nat}, i < n →
      readPixel (fillBg m outPtr n bg) (outPtr + i * 4) = wrap256 bg := by
  intro n
  induction n with
  | zero => intro i h; omega
  | succ k ih =>
      intro i h
      rw [fillBg_succ]
      by_cases hik : i = k
      · subst hik
        exact storePixel_read_self _ _ _
      · rw [storePixel_read_other (by omega)]
        exact ih (by omega)

/-- Membership in an inclusive `i32` loop range. -/
theorem mem_izRange {lo hi z : ℤ} : z ∈ izRange lo hi ↔ lo ≤ z ∧ z ≤ hi := by
  constructor
  · intro hz
    rw [izRange] at hz
    obtain ⟨k, hk, hzeq⟩ := List.mem_map.mp hz
    rw [List.mem_range] at hk
    subst hzeq
    omega
  · intro hz
    rw [izRange]
    refine List.mem_map.mpr ⟨(z - lo).toNat, ?_, ?_⟩
    · rw [List.mem_range]
      omega
    · omega

/-- The linear pixel index of an in-bounds dot coordinate is in range. -/
theorem dotIndex_lt {w h : Nat} {x y : ℤ} (hx0 : 0 ≤ x) (hx1 : x ≤ (w : ℤ) - 1)
    (hy0 : 0 ≤ y) (hy1 : y ≤ (h : ℤ) - 1) : (y * (w : ℤ) + x).toNat < w * h := by
  have hw1 : (1 : ℤ) ≤ (w : ℤ) := by omega
  have hyw : y * (w : ℤ) ≤ ((h : ℤ) - 1) * (w : ℤ) :=
    mul_le_mul_of_nonneg_right hy1 (by omega)
  have hsum : y * (w : ℤ) + x ≤ (h : ℤ) * (w : ℤ) - 1 := by nlinarith
  have hmul : (h : ℤ) * (w : ℤ) = (w : ℤ) * (h : ℤ) := by ring
  have hnn : 0 ≤ y * (w : ℤ) + x :=
    add_nonneg (mul_nonneg hy0 (Int.ofNat_nonneg w)) hx0
  zify
  rw [Int.toNat_of_nonneg hnn]
  linarith [hsum, hmul]

/-- A halftone cell writes only inside the output region. -/
theorem processCell_outside {pixelsPtr outPtr w h dotSize spacing : Nat}
    {dotC : RGBA} {m : Nat → Nat} {cell : Nat × Nat} {a : Nat}
    (ha : a < outPtr ∨ outPtr + w * h * 4 ≤ a) :
    processCell pixelsPtr outPtr w h dotSize spacing dotC m cell a = m a := by
  simp only [processCell]
  split
  · rfl
  split
  · rfl
  have inner : ∀ (y : ℤ), 0 ≤ y → y ≤ (h : ℤ) - 1 →
      ∀ (xs : List ℤ), (∀ x ∈ xs, 0 ≤ x ∧ x ≤ (w : ℤ) - 1) →
      ∀ (mm : Nat → Nat) (cX cY rSq : Frac),
        (xs.foldl (fun m2 (x : ℤ) =>
          if ((x : Frac) - cX) * ((x : Frac) - cX) + ((y : Frac) - cY) * ((y : Frac) - cY) ≤ rSq
          then storePixel m2 (outPtr + (y * (w : ℤ) + x).toNat * 4) dotC
          else m2) mm) a = mm a := by
    intro y hy0 hy1 xs
    induction xs with
    | nil => intro _ mm _ _ _; rfl
    | cons x xs ih =>
        intro hxs mm cX cY rSq
        rw [List.foldl_cons]
        obtain ⟨hx0, hx1⟩ := hxs x (List.mem_cons_self _ _)
        have hrest := fun p hp => hxs p (List.mem_cons_of_mem _ hp)
        split
        · rw [ih hrest _ cX cY rSq,
            storePixel_outside (by have := dotIndex_lt hx0 hx1 hy0 hy1; omega)]
        · rw [ih hrest _ cX cY rSq]
  have outer : ∀ (ys : List ℤ), (∀ y ∈ ys, 0 ≤ y ∧ y ≤ (h : ℤ) - 1) →
      ∀ (mm : Nat → Nat) (cX cY rSq dr : Frac),
        (ys.foldl (fun m1 (y : ℤ) =>
          (izRange (max 0 (ratTrunc (cX - dr))) (min ((w : ℤ) - 1) (ratTrunc (cX + dr)))).foldl
            (fun m2 (x : ℤ) =>
              if ((x : Frac) - cX) * ((x : Frac) - cX) + ((y : Frac) - cY) * ((y : Frac) - cY) ≤ rSq
              then storePixel m2 (outPtr + (y * (w : ℤ) + x).toNat * 4) dotC
              else m2) m1) mm) a = mm a := by
    intro ys
    induction ys with
    | nil => intro _ mm _ _ _ _; rfl
    | cons y ys ih =>
        intro hys mm cX cY rSq dr
        rw [List.foldl_cons]
        obtain ⟨hy0, hy1⟩ := hys y (List.mem_cons_self _ _)
        rw [ih (fun p hp => hys p (List.mem_cons_of_mem _ hp)) _ cX cY rSq dr,
          inner y hy0 hy1 _
            (fun x hx => by
              have := mem_izRange.mp hx
              constructor
              · have : max 0 (ratTrunc (cX - dr)) ≤ x := this.1
                omega
              · have h2 : x ≤ min ((w : ℤ) - 1) (ratTrunc (cX + dr)) := this.2
                have := min_le_left ((w : ℤ) - 1) (ratTrunc (cX + dr))
                omega)
            mm cX cY rSq]
  exact outer _
    (fun y hy => by
      have := mem_izRange.mp hy
      constructor
      · have : max 0 (ratTrunc _) ≤ y := this.1
        omega
      · have h2 := this.2
        have := min_le_left ((h : ℤ) - 1)
          (ratTrunc (((cell.2 : Frac) + (spacing : Frac) / 2)
            + cellRadius dotSize (cellSum m pixelsPtr w h cell.1 cell.2 spacing).1
                (cellSum m pixelsPtr w h cell.1 cell.2 spacing).2))
        omega)
    m _ _ _ _

/-- A byte wrap is the identity on byte-valued colors. -/
theorem wrap256_eq {c : RGBA} (h : c.r ≤ 255 ∧ c.g ≤ 255 ∧ c.b ≤ 255 ∧ c.a ≤ 255) :
    wrap256 c = c := by
  obtain ⟨h1, h2, h3, h4⟩ := h
  rw [wrap256, Nat.mod_eq_of_lt (show c.r < 256 by omega),
    Nat.mod_eq_of_lt (show c.g < 256 by omega),
    Nat.mod_eq_of_lt (show c.b < 256 by omega),
    Nat.mod_eq_of_lt (show c.a < 256 by omega)]

/-- Processing one halftone cell keeps every output pixel equal to the
(wrapped) background or dot color: the only writes are whole-pixel dot-color
stores at in-range, pixel-aligned output offsets. -/
theorem processCell_pixels {pixelsPtr outPtr w h dotSize spacing : Nat}
    {dotC bgC : RGBA} {m : Nat → Nat} {cell : Nat × Nat}
    (hm : ∀ i, i < w * h →
      readPixel m (outPtr + i * 4) = wrap256 bgC
      ∨ readPixel m (outPtr + i * 4) = wrap256 dotC) :
    ∀ i, i < w * h →
      readPixel (processCell pixelsPtr outPtr w h dotSize spacing dotC m cell)
          (outPtr + i * 4) = wrap256 bgC
      ∨ readPixel (processCell pixelsPtr outPtr w h dotSize spacing dotC m cell)
          (outPtr + i * 4) = wrap256 dotC := by
  simp only [processCell]
  split
  · exact hm
  split
  · exact hm
  have inner : ∀ (y : ℤ), 0 ≤ y → y ≤ (h : ℤ) - 1 →
      ∀ (xs : List ℤ), (∀ x ∈ xs, 0 ≤ x ∧ x ≤ (w : ℤ) - 1) →
      ∀ (mm : Nat → Nat) (cX cY rSq : Frac),
        (∀ i, i < w * h →
          readPixel mm (outPtr + i * 4) = wrap256 bgC
          ∨ readPixel mm (outPtr + i * 4) = wrap256 dotC) →
        ∀ i, i < w * h →
          readPixel ((xs.foldl (fun m2 (x : ℤ) =>
            if ((x : Frac) - cX) * ((x : Frac) - cX) + ((y : Frac) - cY) * ((y : Frac) - cY) ≤ rSq
            then storePixel m2 (outPtr + (y * (w : ℤ) + x).toNat * 4) dotC
            else m2) mm)) (outPtr + i * 4) = wrap256 bgC
          ∨ readPixel ((xs.foldl (fun m2 (x : ℤ) =>
            if ((x : Frac) - cX) * ((x : Frac) - cX) + ((y : Frac) - cY) * ((y : Frac) - cY) ≤ rSq
            then storePixel m2 (outPtr + (y * (w : ℤ) + x).toNat * 4) dotC
            else m2) mm)) (outPtr + i * 4) = wrap256 dotC := by
    intro y hy0 hy1 xs
    induction xs with
    | nil => intro _ mm _ _ _ hmm i hi; exact hmm i hi
    | cons x xs ih =>
        intro hxs mm cX cY rSq hmm i hi
        rw [List.foldl_cons]
        obtain ⟨hx0, hx1⟩ := hxs x (List.mem_cons_self _ _)
        have hrest := fun p hp => hxs p (List.mem_cons_of_mem _ hp)
        refine ih hrest _ cX cY rSq ?_ i hi
        split
        · rename_i hcond
          intro i' hi'
          by_cases hij : i' = (y * (w : ℤ) + x).toNat
          · subst hij
            right
            exact storePixel_read_self _ _ _
          · rw [storePixel_read_other (by omega)]
            exact hmm i' hi'
        · exact hmm
  have outer : ∀ (ys : List ℤ), (∀ y ∈ ys, 0 ≤ y ∧ y ≤ (h : ℤ) - 1) →
      ∀ (mm : Nat → Nat) (cX cY rSq dr : Frac),
        (∀ i, i < w * h →
          readPixel mm (outPtr + i * 4) = wrap256 bgC
          ∨ readPixel mm (outPtr + i * 4) = wrap256 dotC) →
        ∀ i, i < w * h →
          readPixel ((ys.foldl (fun m1 (y : ℤ) =>
            (izRange (max 0 (ratTrunc (cX - dr))) (min ((w : ℤ) - 1) (ratTrunc (cX + dr)))).foldl
              (fun m2 (x : ℤ) =>
                if ((x : Frac) - cX) * ((x : Frac) - cX) + ((y : Frac) - cY) * ((y : Frac) - cY) ≤ rSq
                then storePixel m2 (outPtr + (y * (w : ℤ) + x).toNat * 4) dotC
                else m2) m1) mm)) (outPtr + i * 4) = wrap256 bgC
          ∨ readPixel ((ys.foldl (fun m1 (y : ℤ) =>
            (izRange (max 0 (ratTrunc (cX - dr))) (min ((w : ℤ) - 1) (ratTrunc (cX + dr)))).foldl
              (fun m2 (x : ℤ) =>
                if ((x : Frac) - cX) * ((x : Frac) - cX) + ((y : Frac) - cY) * ((y : Frac) - cY) ≤ rSq
                then storePixel m2 (outPtr + (y * (w : ℤ) + x).toNat * 4) dotC
                else m2) m1) mm)) (outPtr + i * 4) = wrap256 dotC := by
    intro ys
    induction ys with
    | nil => intro _ mm _ _ _ _ hmm i hi; exact hmm i hi
    | cons y ys ih =>
        intro hys mm cX cY rSq dr hmm i hi
        rw [List.foldl_cons]
        obtain ⟨hy0, hy1⟩ := hys y (List.mem_cons_self _ _)
        refine ih (fun p hp => hys p (List.mem_cons_of_mem _ hp)) _ cX cY rSq dr ?_ i hi
        refine inner y hy0 hy1 _
          (fun x hx => by
            have hmem := mem_izRange.mp hx
            constructor
            · have : max 0 (ratTrunc (cX - dr)) ≤ x := hmem.1
              omega
            · have h2 : x ≤ min ((w : ℤ) - 1) (ratTrunc (cX + dr)) := hmem.2
              have := min_le_left ((w : ℤ) - 1) (ratTrunc (cX + dr))
              omega)
          mm cX cY rSq hmm
  refine outer _
    (fun y hy => by
      have hmem := mem_izRange.mp hy
      constructor
      · have : max 0 (ratTrunc _) ≤ y := hmem.1
        omega
      · have h2 := hmem.2
        have := min_le_left ((h : ℤ) - 1)
          (ratTrunc (((cell.2 : Frac) + (spacing : Frac) / 2)
            + cellRadius dotSize (cellSum m pixelsPtr w h cell.1 cell.2 spacing).1
                (cellSum m pixelsPtr w h cell.1 cell.2 spacing).2))
        omega)
    m _ _ _ _ hm

/-- The whole halftone kernel writes only inside the output region. -/
theorem halftone_outside {m : Nat → Nat}
    {pixelsPtr outPtr w h dotSize spacing : Nat} {dotC bgC : RGBA} {a : Nat}
    (ha : a < outPtr ∨ outPtr + w * h * 4 ≤ a) :
    halftone m pixelsPtr outPtr w h dotSize spacing dotC bgC a = m a := by
  rw [halftone]
  have hfold : ∀ (L : List (Nat × Nat)) (mm : Nat → Nat),
      (L.foldl (processCell pixelsPtr outPtr w h dotSize spacing dotC) mm) a = mm a := by
    intro L
    induction L with
    | nil => intro mm; rfl
    | cons hd tl ih =>
        intro mm
        rw [List.foldl_cons, ih, processCell_outside ha]
  rw [hfold]
  exact fillBg_outside (by omega)

/-- Every output pixel of the halftone kernel is the (wrapped) background or
dot color. -/
theorem halftone_pixels {m : Nat → Nat}
    {pixelsPtr outPtr w h dotSize spacing : Nat} {dotC bgC : RGBA} :
    ∀ i, i < w * h →
      readPixel (halftone m pixelsPtr outPtr w h dotSize spacing dotC bgC)
          (outPtr + i * 4) = wrap256 bgC
      ∨ readPixel (halftone m pixelsPtr outPtr w h dotSize spacing dotC bgC)
          (outPtr + i * 4) = wrap256 dotC := by
  rw [halftone]
  have hfold : ∀ (L : List (Nat × Nat)) (mm : Nat → Nat),
      (∀ i, i < w * h →
        readPixel mm (outPtr + i * 4) = wrap256 bgC
        ∨ readPixel mm (outPtr + i * 4) = wrap256 dotC) →
      ∀ i, i < w * h →
        readPixel (L.foldl (processCell pixelsPtr outPtr w h dotSize spacing dotC) mm)
            (outPtr + i * 4) = wrap256 bgC
        ∨ readPixel (L.foldl (processCell pixelsPtr outPtr w h dotSize spacing dotC) mm)
            (outPtr + i * 4) = wrap256 dotC := by
    intro L
    induction L with
    | nil => intro mm hmm; exact hmm
    | cons hd tl ih =>
        intro mm hmm
        rw [List.foldl_cons]
        exact ih _ (processCell_pixels hmm)
  exact hfold _ _ (fun i hi => Or.inl (fillBg_read hi))

/-- Claim C9: with disjoint input/output regions, the halftone fast kernel
leaves every byte of the input pixel region unchanged, and every output pixel
is exactly the background color or the dot color. -/
theorem halftone_frame_C9 (m : Nat → Nat)
    (pixelsPtr outPtr w h dotSize spacing : Nat) (dotC bgC : RGBA)
    (hsp : 0 < spacing)
    (hdisj : pixelsPtr + w * h * 4 ≤ outPtr ∨ outPtr + w * h * 4 ≤ pixelsPtr)
    (hdot : dotC.r ≤ 255 ∧ dotC.g ≤ 255 ∧ dotC.b ≤ 255 ∧ dotC.a ≤ 255)
    (hbg : bgC.r ≤ 255 ∧ bgC.g ≤ 255 ∧ bgC.b ≤ 255 ∧ bgC.a ≤ 255) :
    (∀ a, pixelsPtr ≤ a → a < pixelsPtr + w * h * 4 →
      halftone m pixelsPtr outPtr w h dotSize spacing dotC bgC a = m a)
    ∧ (∀ i, i < w * h →
        readPixel (halftone m pixelsPtr outPtr w h dotSize spacing dotC bgC)
            (outPtr + i * 4) = bgC
        ∨ readPixel (halftone m pixelsPtr outPtr w h dotSize spacing dotC bgC)
            (outPtr + i * 4) = dotC) := by
  have hsp' : 0 < spacing := hsp
  constructor
  · intro a h1 h2
    exact halftone_outside (by omega)
  · intro i hi
    have hmem := @halftone_pixels m pixelsPtr outPtr w h dotSize spacing dotC bgC i hi
    rw [wrap256_eq hbg, wrap256_eq hdot] at hmem
    exact hmem

/-- A 1×1 opaque black input at address 0 (RGBA bytes `0,0,0,255`). -/
def blackHeap1 : Nat → Nat :=
  fun a => if a < 4 ∧ a % 4 = 3 then 255 else 0

/-- Claim C9 witness: the theorem applied to a 1×1 image with the output
region at offset 4. -/
theorem halftone_frame_C9_witness :
    (∀ a, 0 ≤ a → a < 0 + 1 * 1 * 4 →
      halftone blackHeap1 0 4 1 1 2 1 ⟨0, 0, 0, 255⟩ ⟨255, 255, 255, 255⟩ a
        = blackHeap1 a)
    ∧ (∀ i, i < 1 * 1 →
        readPixel (halftone blackHeap1 0 4 1 1 2 1 ⟨0, 0, 0, 255⟩ ⟨255, 255, 255, 255⟩)
            (4 + i * 4) = ⟨255, 255, 255, 255⟩
        ∨ readPixel (halftone blackHeap1 0 4 1 1 2 1 ⟨0, 0, 0, 255⟩ ⟨255, 255, 255, 255⟩)
            (4 + i * 4) = ⟨0, 0, 0, 255⟩) :=
  halftone_frame_C9 blackHeap1 0 4 1 1 2 1 ⟨0, 0, 0, 255⟩ ⟨255, 255, 255, 255⟩
    (by decide) (by omega) (by decide) (by decide)

/-- A 10×10 opaque black input at address 0. -/
def blackHeap : Nat → Nat :=
  fun addr => if addr < 400 ∧ addr % 4 = 3 then 255 else 0

/-- An all-white input (every byte 255). -/
def whiteHeap : Nat → Nat :=
  fun _ => 255

set_option maxRecDepth 100000 in
set_option maxHeartbeats 4000000 in
/-- Claim C7: a halftone cell whose radius `maxRadius*(1 - avg/255)` (or whose
pixel count) vanishes below the threshold draws nothing; and on the 10×10
solid-black image with `spacing=4`, `dotSize=4`, circular dots, the cell at
the origin has radius `maxRadius = dotSize/2 = 2` and the kernel paints the
dot color (≠ background) at pixel `(2,2)`. -/
theorem halftone_radius_skip_scenario_C7 :
    (∀ (pixelsPtr outPtr w h dotSize spacing gx gy : Nat) (dotC : RGBA)
        (m : Nat → Nat),
      ((cellSum m pixelsPtr w h gx gy spacing).2 = 0 ∨
        cellRadius dotSize (cellSum m pixelsPtr w h gx gy spacing).1
          (cellSum m pixelsPtr w h gx gy spacing).2 < (1 : Frac) / 2) →
      processCell pixelsPtr outPtr w h dotSize spacing dotC m (gx, gy) = m)
    ∧ (cellSum blackHeap 0 10 10 0 0 4).1 = 0
    ∧ (cellSum blackHeap 0 10 10 0 0 4).2 = 16
    ∧ (cellRadius 4 0 16).eqv ((4 : Frac) / 2)
    ∧ (cellRadius 4 0 16).eqv 2
    ∧ readPixel (halftone blackHeap 0 400 10 10 4 4 ⟨0, 0, 0, 255⟩ ⟨255, 255, 255, 255⟩)
        (400 + (2 * 10 + 2) * 4) = ⟨0, 0, 0, 255⟩
    ∧ (⟨0, 0, 0, 255⟩ : RGBA) ≠ ⟨255, 255, 255, 255⟩ := by
  refine ⟨?_, by decide, by decide, by decide, by decide, by decide, by decide⟩
  intro pixelsPtr outPtr w h dotSize spacing gx gy dotC m hskip
  simp only [processCell]
  split
  · rfl
  · split
    · rfl
    · rename_i hc hr
      rcases hskip with h0 | hrad
      · exact absurd h0 hc
      · exact absurd hrad hr

/-- Claim C7 witness: the skip branch applied to an all-white cell (radius 0),
together with the closed scenario facts restated through the theorem. -/
theorem halftone_radius_skip_scenario_C7_witness :
    processCell 0 16 2 2 4 1 ⟨0, 0, 0, 255⟩ whiteHeap (0, 0) = whiteHeap
    ∧ (cellRadius 4 0 16).eqv 2 :=
  ⟨halftone_radius_skip_scenario_C7.1 0 16 2 2 4 1 0 0 ⟨0, 0, 0, 255⟩ whiteHeap
      (Or.inr (by decide)),
    halftone_radius_skip_scenario_C7.2.2.2.2.1⟩

end Neffect
